import Mathlib

/-!
Verification of the storage / subscription / withdrawal model of the
Telegram trading-signal bot (src/bot.py, src/db_kv.py).

Python values are embedded shallowly:

* Python strings are `List Char` (`Str`), so that prefix tests and
  splitting are structural.
* JSON documents (Python dicts persisted through the KV store) are
  association lists `Doc α := List (Str × α)`; `dSet` mirrors Python
  dict assignment (update-in-place keeps the position of an existing
  key, a new key is appended, matching insertion order), `dGet` mirrors
  lookup and `List.length` mirrors `len`.
* `datetime` values are absolute timestamps in seconds (`Int`);
  `timedelta(days = d)` is `d * 86400`.  A subscription's stored
  `expire_at` JSON field is `ExpVal`: `null` for JSON `None`,
  `malformed` for a string `strptime` rejects (or the empty string),
  `valid t` for a well-formed "%Y-%m-%d %H:%M:%S" string denoting `t`
  (the format round-trips through strftime/strptime).
* Balances are exact rationals (`ℚ`); decimal command arguments are
  parsed to exact rationals, and `round(x, 2)` is modelled as
  round-half-to-even at two decimals.
-/

/-- A Python string, as its list of characters. -/
abbrev Str := List Char

/-- The characters of a Lean string literal, used to write `Str` constants. -/
def lit (s : String) : Str := s.data

/-- Python truthiness of an optional string field (`None` and `""` are falsy). -/
def pyTruthyStr : Option Str → Bool
  | none => false
  | some s => !s.isEmpty

/-- `s.startswith(p)` on Python strings. -/
def lstarts : Str → Str → Bool
  | _, [] => true
  | [], _ :: _ => false
  | c :: cs, p :: ps => c == p && lstarts cs ps

/-- The part of `s` after the first occurrence of `c`
    (`s.split(c, 1)[1]` when the separator occurs). -/
def afterFirst (c : Char) : Str → Option Str
  | [] => none
  | x :: xs => if x == c then some xs else afterFirst c xs

/-- A JSON document: a Python dict keyed by strings, in insertion order. -/
abbrev Doc (α : Type) := List (Str × α)

/-- Python dict lookup `d.get(k)`. -/
def dGet (d : Doc α) (k : Str) : Option α :=
  (d.find? (fun p => p.1 == k)).map (·.2)

/-- Python `k in d`. -/
def dMem (d : Doc α) (k : Str) : Bool := d.any (·.1 == k)

/-- Python dict assignment `d[k] = v`: replaces the first binding of `k`
    in place, or appends a fresh binding. -/
def dSet (d : Doc α) (k : Str) (v : α) : Doc α :=
  match d with
  | [] => [(k, v)]
  | (k', v') :: rest => if k' == k then (k, v) :: rest else (k', v') :: dSet rest k v

theorem dGet_dSet_self (d : Doc α) (k : Str) (v : α) : dGet (dSet d k v) k = some v := by
  induction d with
  | nil => simp [dGet, dSet]
  | cons p rest ih =>
    by_cases h : p.1 = k
    · simp [dSet, dGet, h]
    · have hb : (p.1 == k) = false := by simp [h]
      simp only [dSet, dGet] at *
      cases p with
      | mk k' v' =>
        simp only at hb
        simp [hb, List.find?, ih]

theorem dGet_dSet_ne (d : Doc α) (k k' : Str) (v : α) (h : k' ≠ k) :
    dGet (dSet d k v) k' = dGet d k' := by
  have hkk : (k == k') = false := beq_eq_false_iff_ne.mpr (Ne.symm h)
  induction d with
  | nil => simp [dGet, dSet, List.find?_cons, hkk]
  | cons p rest ih =>
    cases p with
    | mk a b =>
      cases ha : (a == k) with
      | true =>
        have ha' : a = k := by simpa using ha
        have hak' : (a == k') = false := by simp [ha', Ne.symm h]
        simp [dSet, ha, dGet, List.find?_cons, hak', hkk]
      | false =>
        cases hc : (a == k') with
        | true => simp [dSet, ha, dGet, List.find?_cons, hc]
        | false =>
          simp only [dGet] at ih
          simp [dSet, ha, dGet, List.find?_cons, hc, ih]

theorem dSet_length_of_mem (d : Doc α) (k : Str) (v : α) (h : dMem d k = true) :
    (dSet d k v).length = d.length := by
  induction d with
  | nil => simp [dMem] at h
  | cons p rest ih =>
    by_cases hp : p.1 = k
    · cases p; simp_all [dSet]
    · have hb : (p.1 == k) = false := by simp [hp]
      cases p with
      | mk a b =>
        simp only at hb
        simp only [dMem, List.any_cons, hb, Bool.false_or] at h
        simp [dSet, hb, ih h]

theorem dSet_length_of_not_mem (d : Doc α) (k : Str) (v : α) (h : dMem d k = false) :
    (dSet d k v).length = d.length + 1 := by
  induction d with
  | nil => simp [dSet]
  | cons p rest ih =>
    cases p with
    | mk a b =>
      simp only [dMem, List.any_cons, Bool.or_eq_false_iff] at h
      simp [dSet, h.1, ih (by simp [dMem, h.2])]

theorem dGet_eq_none_of_not_mem (d : Doc α) (k : Str) (h : dMem d k = false) :
    dGet d k = none := by
  induction d with
  | nil => simp [dGet]
  | cons p rest ih =>
    cases p with
    | mk a b =>
      simp only [dMem, List.any_cons, Bool.or_eq_false_iff] at h
      simp only [dGet, List.find?, h.1]
      exact ih (by simp [dMem, h.2])

/-- `dSet` on an absent key appends the binding at the end. -/
theorem dSet_eq_append_of_not_mem (d : Doc α) (k : Str) (v : α) (h : dMem d k = false) :
    dSet d k v = d ++ [(k, v)] := by
  induction d with
  | nil => simp [dSet]
  | cons p rest ih =>
    cases p with
    | mk a b =>
      simp only [dMem, List.any_cons, Bool.or_eq_false_iff] at h
      simp [dSet, h.1, ih (by simp [dMem, h.2])]

/-! ### Decimal numerals (Python `str` on integers, and digit parsing) -/

/-- The decimal digit characters. -/
def digitCh : Nat → Char
  | 0 => '0' | 1 => '1' | 2 => '2' | 3 => '3' | 4 => '4'
  | 5 => '5' | 6 => '6' | 7 => '7' | 8 => '8' | _ => '9'

def isDigitCh (c : Char) : Bool := 48 ≤ c.toNat && c.toNat ≤ 57

def digitValCh (c : Char) : Nat := c.toNat - 48

/-- Fuel-driven digit accumulation for `str(n)`; fuel `n + 1` always suffices. -/
def natToStrGo : Nat → Nat → Str → Str
  | 0, _, acc => acc
  | fuel + 1, n, acc =>
    if n < 10 then digitCh n :: acc
    else natToStrGo fuel (n / 10) (digitCh (n % 10) :: acc)

/-- Python `str(n)` for a non-negative integer. -/
def natToStr (n : Nat) : Str := natToStrGo (n + 1) n []

/-- Python `str(i)`: a minus sign followed by the digits of the absolute value. -/
def intToStr (i : Int) : Str :=
  if i < 0 then '-' :: natToStr i.natAbs else natToStr i.natAbs

theorem digitVal_digitCh (d : Nat) (h : d < 10) : digitValCh (digitCh d) = d := by
  interval_cases d <;> decide

theorem isDigit_digitCh (d : Nat) (h : d < 10) : isDigitCh (digitCh d) = true := by
  interval_cases d <;> decide

theorem natToStrGo_acc (fuel : Nat) : ∀ n acc,
    natToStrGo fuel n acc = natToStrGo fuel n [] ++ acc := by
  induction fuel with
  | zero => intro n acc; simp [natToStrGo]
  | succ fuel ih =>
    intro n acc
    by_cases h : n < 10
    · simp [natToStrGo, h]
    · simp only [natToStrGo, h, if_false]
      rw [ih (n / 10) (digitCh (n % 10) :: acc), ih (n / 10) [digitCh (n % 10)]]
      simp

theorem natToStrGo_fuel (f1 : Nat) : ∀ f2 n, n < f1 → n < f2 →
    natToStrGo f1 n [] = natToStrGo f2 n [] := by
  induction f1 with
  | zero => intro f2 n h; omega
  | succ f1 ih =>
    intro f2 n h1 h2
    cases f2 with
    | zero => omega
    | succ f2 =>
      by_cases h : n < 10
      · simp [natToStrGo, h]
      · have hd : n / 10 < n := Nat.div_lt_self (by omega) (by omega)
        simp only [natToStrGo, h, if_false]
        rw [natToStrGo_acc f1, natToStrGo_acc f2, ih f2 (n / 10) (by omega) (by omega)]

theorem natToStr_lt10 (n : Nat) (h : n < 10) : natToStr n = [digitCh n] := by
  simp [natToStr, natToStrGo, h]

theorem natToStr_ge10 (n : Nat) (h : 10 ≤ n) :
    natToStr n = natToStr (n / 10) ++ [digitCh (n % 10)] := by
  have hd : n / 10 < n := Nat.div_lt_self (by omega) (by omega)
  have step : natToStr n = natToStrGo n (n / 10) [digitCh (n % 10)] := by
    simp [natToStr, natToStrGo, show ¬ n < 10 by omega]
  rw [step, natToStrGo_acc n, natToStrGo_fuel n (n / 10 + 1) (n / 10) (by omega) (by omega)]
  rfl

theorem natToStr_ne_nil (n : Nat) : natToStr n ≠ [] := by
  by_cases h : n < 10
  · simp [natToStr_lt10 n h]
  · rw [natToStr_ge10 n (by omega)]
    simp

theorem natToStr_digits (n : Nat) : ∀ c ∈ natToStr n, isDigitCh c = true := by
  induction n using Nat.strong_induction_on with
  | _ n ih =>
    by_cases h : n < 10
    · rw [natToStr_lt10 n h]
      intro c hc
      simp at hc
      subst hc
      exact isDigit_digitCh n h
    · rw [natToStr_ge10 n (by omega)]
      intro c hc
      rcases List.mem_append.mp hc with hc | hc
      · exact ih (n / 10) (Nat.div_lt_self (by omega) (by omega)) c hc
      · simp at hc
        subst hc
        exact isDigit_digitCh (n % 10) (Nat.mod_lt n (by omega))

/-- Longest leading run of digit characters, and the remainder. -/
def takeDigits : Str → Str × Str
  | [] => ([], [])
  | c :: cs =>
    if isDigitCh c then
      let p := takeDigits cs
      (c :: p.1, p.2)
    else ([], c :: cs)

/-- Value of a digit string, most significant digit first. -/
def valOfDigits (ds : Str) : Nat := ds.foldl (fun a c => a * 10 + digitValCh c) 0

/-- `True` when the string does not begin with a digit character. -/
def headNotDigit : Str → Prop
  | [] => True
  | c :: _ => isDigitCh c = false

theorem takeDigits_append (ds : Str) (hds : ∀ c ∈ ds, isDigitCh c = true) (rest : Str)
    (hrest : headNotDigit rest) : takeDigits (ds ++ rest) = (ds, rest) := by
  induction ds with
  | nil =>
    cases rest with
    | nil => rfl
    | cons c cs =>
      simp only [headNotDigit] at hrest
      simp [takeDigits, hrest]
  | cons c cs ih =>
    have hc := hds c (by simp)
    simp [takeDigits, hc, ih (fun x hx => hds x (by simp [hx]))]

theorem foldl_val_append (ds : Str) (a : Nat) :
    (ds ++ rest).foldl (fun a c => a * 10 + digitValCh c) a =
      rest.foldl (fun a c => a * 10 + digitValCh c) (ds.foldl (fun a c => a * 10 + digitValCh c) a) := by
  rw [List.foldl_append]

theorem foldl_val_shift (ds : Str) : ∀ a : Nat, (∀ c ∈ ds, isDigitCh c = true) →
    ds.foldl (fun a c => a * 10 + digitValCh c) a = a * 10 ^ ds.length + valOfDigits ds := by
  induction ds with
  | nil => intro a _; simp [valOfDigits]
  | cons c cs ih =>
    intro a hds
    have h1 := ih (a * 10 + digitValCh c) (fun x hx => hds x (by simp [hx]))
    have h2 := ih (digitValCh c) (fun x hx => hds x (by simp [hx]))
    simp only [valOfDigits, List.foldl_cons, Nat.zero_mul, Nat.zero_add] at *
    rw [h1, h2, List.length_cons, pow_succ]
    ring

theorem valOfDigits_natToStr (n : Nat) : valOfDigits (natToStr n) = n := by
  induction n using Nat.strong_induction_on with
  | _ n ih =>
    by_cases h : n < 10
    · rw [natToStr_lt10 n h]
      simp [valOfDigits, digitVal_digitCh n h]
    · have hd : n / 10 < n := Nat.div_lt_self (by omega) (by omega)
      rw [natToStr_ge10 n (by omega)]
      simp only [valOfDigits, List.foldl_append, List.foldl_cons, List.foldl_nil]
      rw [foldl_val_shift (natToStr (n / 10)) 0 (natToStr_digits (n / 10))]
      have hv : valOfDigits (natToStr (n / 10)) = n / 10 := ih (n / 10) hd
      rw [hv, digitVal_digitCh (n % 10) (Nat.mod_lt n (by omega))]
      simp only [Nat.zero_mul, Nat.zero_add]
      omega

/-- `str(n)` has no redundant leading zero: it starts with `'0'` only for `n = 0`. -/
theorem natToStr_head_zero (n : Nat) : ∀ t : Str, natToStr n = '0' :: t → n = 0 ∧ t = [] := by
  induction n using Nat.strong_induction_on with
  | _ n ih =>
    intro t h
    by_cases hn : n < 10
    · rw [natToStr_lt10 n hn] at h
      have h1 : digitCh n = '0' := by simpa using congrArg List.head? h
      have h2 : t = [] := by simpa using congrArg List.tail h
      refine ⟨?_, h2⟩
      by_contra hne
      interval_cases n
      · exact absurd rfl hne
      all_goals revert h1
      all_goals decide
    · exfalso
      have hd : n / 10 < n := Nat.div_lt_self (by omega) (by omega)
      rw [natToStr_ge10 n (by omega)] at h
      cases hh : natToStr (n / 10) with
      | nil => exact natToStr_ne_nil (n / 10) hh
      | cons c cs =>
        rw [hh] at h
        have hc : c = '0' := by
          simpa using congrArg List.head? h
        have h10 : n / 10 = 0 := (ih (n / 10) hd cs (hc ▸ hh)).1
        omega

/-! ### JSON values

`json.dumps` / `json.loads` as used by both storage backends
(`db_kv.set_json` / `db_kv.get_json`, and `_atomic_write_json` /
`load_json` in bot.py).  Numbers are modelled as integers: float
literals (and `NaN`/`Infinity`) are floating point and outside this
embedding.  Objects mirror Python dicts: string keys in insertion
order. -/

mutual
inductive J where
  | null : J
  | bool (b : Bool) : J
  | num (n : Int) : J
  | str (s : Str) : J
  | arr (xs : JList) : J
  | obj (fs : JObj) : J
inductive JList where
  | nil : JList
  | cons (hd : J) (tl : JList) : JList
inductive JObj where
  | nil : JObj
  | cons (k : Str) (v : J) (tl : JObj) : JObj
end

/-- Build a `JList` from a Lean list (for concrete examples). -/
def JList.ofL : List J → JList
  | [] => .nil
  | x :: xs => .cons x (JList.ofL xs)

/-- Build a `JObj` from a Lean association list (for concrete examples). -/
def JObj.ofL : List (Str × J) → JObj
  | [] => .nil
  | (k, v) :: xs => .cons k v (JObj.ofL xs)

/-- The JSON whitespace characters (`json.decoder` skips ` \t\n\r`). -/
def isWsCh (c : Char) : Bool := c == ' ' || c == '\t' || c == '\n' || c == '\x0d'

def skipWs : Str → Str
  | [] => []
  | c :: cs => if isWsCh c then skipWs cs else c :: cs

theorem skipWs_append (w : Str) (hw : ∀ c ∈ w, isWsCh c = true) (s : Str) :
    skipWs (w ++ s) = skipWs s := by
  induction w with
  | nil => rfl
  | cons c cs ih =>
    simp only [List.cons_append, skipWs, hw c (by simp)]
    exact ih (fun x hx => hw x (by simp [hx]))

theorem skipWs_not_ws (c : Char) (cs : Str) (h : isWsCh c = false) :
    skipWs (c :: cs) = c :: cs := by
  simp [skipWs, h]

/-- Lowercase hexadecimal digits, as `"\u%04x" % ord(c)` emits. -/
def hexCh : Nat → Char
  | 0 => '0' | 1 => '1' | 2 => '2' | 3 => '3' | 4 => '4'
  | 5 => '5' | 6 => '6' | 7 => '7' | 8 => '8' | 9 => '9'
  | 10 => 'a' | 11 => 'b' | 12 => 'c' | 13 => 'd' | 14 => 'e' | _ => 'f'

/-- Hexadecimal digit value, both cases accepted as by the decoder. -/
def hexValCh (c : Char) : Option Nat :=
  if 48 ≤ c.toNat ∧ c.toNat ≤ 57 then some (c.toNat - 48)
  else if 97 ≤ c.toNat ∧ c.toNat ≤ 102 then some (c.toNat - 87)
  else if 65 ≤ c.toNat ∧ c.toNat ≤ 70 then some (c.toNat - 55)
  else none

/-- `json.dumps` escaping of one character (`ensure_ascii=False`):
only the backslash, the double quote and control characters below
`0x20` are escaped; everything else passes through raw. -/
def escCh (c : Char) : Str :=
  if c == '"' then ['\\', '"']
  else if c == '\\' then ['\\', '\\']
  else if c.toNat < 32 then
    if c == '\x08' then ['\\', 'b']
    else if c == '\x0c' then ['\\', 'f']
    else if c == '\n' then ['\\', 'n']
    else if c == '\x0d' then ['\\', 'r']
    else if c == '\t' then ['\\', 't']
    else ['\\', 'u', '0', '0', hexCh (c.toNat / 16), hexCh (c.toNat % 16)]
  else [c]

def escBody : Str → Str
  | [] => []
  | c :: cs => escCh c ++ escBody cs

/-- A rendered JSON string: quote, escaped body, quote. -/
def renderQ (s : Str) : Str := '"' :: (escBody s ++ ['"'])

/-- Inter-token whitespace layout used by `json.dumps`: nothing
(plus a space after each comma and colon) in compact mode, or
newline-and-indentation when `indent=2` is given.  `afterOpen` and
`afterComma` are rendered at the depth of the items, `beforeClose`
at the depth of the closing bracket. -/
structure WsCfg where
  afterOpen : Nat → Str
  afterComma : Nat → Str
  beforeClose : Nat → Str

def WsCfg.ok (cfg : WsCfg) : Prop :=
  ∀ d, (∀ c ∈ cfg.afterOpen d, isWsCh c = true) ∧
    (∀ c ∈ cfg.afterComma d, isWsCh c = true) ∧
    (∀ c ∈ cfg.beforeClose d, isWsCh c = true)

mutual
def renderJ (cfg : WsCfg) (d : Nat) : J → Str
  | .null => lit "null"
  | .bool true => lit "true"
  | .bool false => lit "false"
  | .num n => intToStr n
  | .str s => renderQ s
  | .arr .nil => ['[', ']']
  | .arr (.cons x xs) =>
      '[' :: (cfg.afterOpen (d + 1) ++ renderJ cfg (d + 1) x ++
        renderItems cfg (d + 1) xs ++ cfg.beforeClose d ++ [']'])
  | .obj .nil => ['\x7b', '\x7d']
  | .obj (.cons k v fs) =>
      '\x7b' :: (cfg.afterOpen (d + 1) ++ renderQ k ++ ':' :: ' ' ::
        (renderJ cfg (d + 1) v ++ renderFields cfg (d + 1) fs ++
          cfg.beforeClose d ++ ['\x7d']))
def renderItems (cfg : WsCfg) (d : Nat) : JList → Str
  | .nil => []
  | .cons x xs => ',' :: (cfg.afterComma d ++ renderJ cfg d x ++ renderItems cfg d xs)
def renderFields (cfg : WsCfg) (d : Nat) : JObj → Str
  | .nil => []
  | .cons k v fs =>
      ',' :: (cfg.afterComma d ++ renderQ k ++ ':' :: ' ' ::
        (renderJ cfg d v ++ renderFields cfg d fs))
end

/-- Layout of `json.dumps(value, ensure_ascii=False)` (default separators
`", "` and `": "`), as `db_kv.set_json` produces. -/
def compactCfg : WsCfg := ⟨fun _ => [], fun _ => [' '], fun _ => []⟩

/-- Layout of `json.dumps(value, ensure_ascii=False, indent=2)` (item
separator `","` followed by a newline and two spaces per depth level),
as `_atomic_write_json` produces. -/
def indentCfg : WsCfg :=
  ⟨fun d => '\n' :: List.replicate (2 * d) ' ',
   fun d => '\n' :: List.replicate (2 * d) ' ',
   fun d => '\n' :: List.replicate (2 * d) ' '⟩

def dumpsCompact (v : J) : Str := renderJ compactCfg 0 v

def dumpsIndent (v : J) : Str := renderJ indentCfg 0 v

theorem compactCfg_ok : compactCfg.ok := by
  intro d
  refine ⟨?_, ?_, ?_⟩ <;> intro c hc <;> simp [compactCfg] at hc <;> simp [hc, isWsCh]

theorem indentCfg_ok : indentCfg.ok := by
  intro d
  refine ⟨?_, ?_, ?_⟩ <;> intro c hc <;>
    simp [indentCfg] at hc <;>
    rcases hc with h | h <;> simp [h, isWsCh]

/-! ### JSON parsing (`json.loads`)

The decoder for the fragment produced by the encoder above: values are
`null`/`true`/`false`, integer numerals, strings with the standard
escapes, arrays and objects, with JSON whitespace between tokens.
Deviations from `json.loads`, none of which is reachable from encoder
output: float/exponent numerals are not consumed, and `\u` escapes in
the surrogate range are rejected (Lean `Char` has no surrogates).
Objects are built exactly like Python dicts: later duplicate keys
overwrite in place (`dSet`).  Recursion is fuel-driven; `loads` passes
fuel linear in the input length, which every parse fits in. -/

/-- Consume an exact literal continuation (`rue`, `alse`, `ull`). -/
def expectLit : Str → Str → Option Str
  | [], s => some s
  | _ :: _, [] => none
  | p :: ps, x :: xs => if x == p then expectLit ps xs else none

/-- Decode a JSON string body after the opening quote, in strict mode
(raw control characters are rejected). Returns the decoded characters
and the remainder after the closing quote. -/
def parseStrBody : Str → Option (Str × Str)
  | [] => none
  | c :: cs =>
    if c == '"' then some ([], cs)
    else if c == '\\' then
      match cs with
      | [] => none
      | e :: cs' =>
        if e == '"' then (parseStrBody cs').map (fun p => ('"' :: p.1, p.2))
        else if e == '\\' then (parseStrBody cs').map (fun p => ('\\' :: p.1, p.2))
        else if e == '/' then (parseStrBody cs').map (fun p => ('/' :: p.1, p.2))
        else if e == 'b' then (parseStrBody cs').map (fun p => ('\x08' :: p.1, p.2))
        else if e == 'f' then (parseStrBody cs').map (fun p => ('\x0c' :: p.1, p.2))
        else if e == 'n' then (parseStrBody cs').map (fun p => ('\n' :: p.1, p.2))
        else if e == 'r' then (parseStrBody cs').map (fun p => ('\x0d' :: p.1, p.2))
        else if e == 't' then (parseStrBody cs').map (fun p => ('\t' :: p.1, p.2))
        else if e == 'u' then
          match cs' with
          | h1 :: h2 :: h3 :: h4 :: cs'' =>
            match hexValCh h1, hexValCh h2, hexValCh h3, hexValCh h4 with
            | some a, some b, some x, some y =>
              let n := ((a * 16 + b) * 16 + x) * 16 + y
              if 55296 ≤ n ∧ n < 57344 then none
              else (parseStrBody cs'').map (fun p => (Char.ofNat n :: p.1, p.2))
            | _, _, _, _ => none
          | _ => none
        else none
    else if c.toNat < 32 then none
    else (parseStrBody cs).map (fun p => (c :: p.1, p.2))

mutual
def parseVal : Nat → Str → Option (J × Str)
  | 0, _ => none
  | fuel + 1, s =>
    match s with
    | [] => none
    | c :: cs =>
      if c == '\x7b' then parseObjStart fuel (skipWs cs)
      else if c == '[' then parseArrStart fuel (skipWs cs)
      else if c == '"' then (parseStrBody cs).map (fun p => (J.str p.1, p.2))
      else if c == '-' then
        match takeDigits cs with
        | ([], _) => none
        | (d :: ds, r) =>
          if d == '0' && !ds.isEmpty then none
          else some (J.num (-(valOfDigits (d :: ds) : Int)), r)
      else if isDigitCh c then
        match takeDigits cs with
        | (ds, r) =>
          if c == '0' && !ds.isEmpty then none
          else some (J.num (valOfDigits (c :: ds) : Int), r)
      else if c == 't' then (expectLit ['r', 'u', 'e'] cs).map (fun r => (J.bool true, r))
      else if c == 'f' then (expectLit ['a', 'l', 's', 'e'] cs).map (fun r => (J.bool false, r))
      else if c == 'n' then (expectLit ['u', 'l', 'l'] cs).map (fun r => (J.null, r))
      else none
def parseArrStart : Nat → Str → Option (J × Str)
  | 0, _ => none
  | fuel + 1, s =>
    match s with
    | [] => none
    | c :: cs =>
      if c == ']' then some (J.arr .nil, cs)
      else
        match parseVal fuel (c :: cs) with
        | none => none
        | some (v, r) =>
          match parseArrRest fuel r with
          | none => none
          | some (vs, r') => some (J.arr (.cons v vs), r')
def parseArrRest : Nat → Str → Option (JList × Str)
  | 0, _ => none
  | fuel + 1, s =>
    match skipWs s with
    | [] => none
    | c :: cs =>
      if c == ']' then some (.nil, cs)
      else if c == ',' then
        match parseVal fuel (skipWs cs) with
        | none => none
        | some (v, r) =>
          match parseArrRest fuel r with
          | none => none
          | some (vs, r') => some (.cons v vs, r')
      else none
def parseMember : Nat → Str → Option (Str × J × Str)
  | 0, _ => none
  | fuel + 1, s =>
    match s with
    | [] => none
    | c :: cs =>
      if c == '"' then
        match parseStrBody cs with
        | none => none
        | some (k, r) =>
          match skipWs r with
          | [] => none
          | c' :: r' =>
            if c' == ':' then
              match parseVal fuel (skipWs r') with
              | none => none
              | some (v, r'') => some (k, v, r'')
            else none
      else none
def parseObjStart : Nat → Str → Option (J × Str)
  | 0, _ => none
  | fuel + 1, s =>
    match s with
    | [] => none
    | c :: cs =>
      if c == '\x7d' then some (J.obj .nil, cs)
      else
        match parseMember fuel (c :: cs) with
        | none => none
        | some (k, v, r) =>
          match parseObjRest fuel (dSet [] k v) r with
          | none => none
          | some (d, r') => some (J.obj (JObj.ofL d), r')
def parseObjRest : Nat → Doc J → Str → Option (Doc J × Str)
  | 0, _, _ => none
  | fuel + 1, acc, s =>
    match skipWs s with
    | [] => none
    | c :: cs =>
      if c == '\x7d' then some (acc, cs)
      else if c == ',' then
        match parseMember fuel (skipWs cs) with
        | none => none
        | some (k, v, r) => parseObjRest fuel (dSet acc k v) r
      else none
end

/-- `json.loads`: skip leading whitespace, decode one value, and require
only whitespace to follow.  `none` models a raised `JSONDecodeError`. -/
def loads (s : Str) : Option J :=
  match parseVal (2 * s.length + 2) (skipWs s) with
  | none => none
  | some (v, rest) => if skipWs rest = [] then some v else none

/-! ### Round trip: auxiliary notions -/

/-- Keys of an object, in order. -/
def oKeys : JObj → List Str
  | .nil => []
  | .cons k _ fs => k :: oKeys fs

/-- The fields of an object as a `Doc`. -/
def JObj.toDoc : JObj → Doc J
  | .nil => []
  | .cons k v fs => (k, v) :: JObj.toDoc fs

def noDupKeys : List Str → Bool
  | [] => true
  | k :: ks => !ks.contains k && noDupKeys ks

mutual
/-- Well-formed JSON value: every object has pairwise distinct keys
(true of anything serialized from a Python dict). -/
def jwf : J → Bool
  | .null => true
  | .bool _ => true
  | .num _ => true
  | .str _ => true
  | .arr xs => jlwf xs
  | .obj fs => noDupKeys (oKeys fs) && jowf fs
def jlwf : JList → Bool
  | .nil => true
  | .cons x xs => jwf x && jlwf xs
def jowf : JObj → Bool
  | .nil => true
  | .cons _ v fs => jwf v && jowf fs
end

mutual
/-- Parser fuel needed for a value (counts parser-function calls). -/
def jneed : J → Nat
  | .null => 1
  | .bool _ => 1
  | .num _ => 1
  | .str _ => 1
  | .arr xs => 2 + jlneed xs
  | .obj fs => 3 + joneed fs
def jlneed : JList → Nat
  | .nil => 0
  | .cons x xs => 1 + jneed x + jlneed xs
def joneed : JObj → Nat
  | .nil => 0
  | .cons _ v fs => 2 + jneed v + joneed fs
end

theorem jneed_pos (v : J) : 1 ≤ jneed v := by
  cases v <;> simp [jneed] <;> omega

/-- The parser's object accumulation: Python dict construction,
one `d[key] = value` per member. -/
def foldObj : Doc J → JObj → Doc J
  | acc, .nil => acc
  | acc, .cons k v fs => foldObj (dSet acc k v) fs

theorem JObj.ofL_toDoc : (fs : JObj) → JObj.ofL (JObj.toDoc fs) = fs
  | .nil => rfl
  | .cons k v fs => by simp [JObj.toDoc, JObj.ofL, JObj.ofL_toDoc fs]

theorem foldObj_append : (fs : JObj) → ∀ acc : Doc J,
    (∀ k ∈ oKeys fs, dMem acc k = false) → noDupKeys (oKeys fs) = true →
    foldObj acc fs = acc ++ JObj.toDoc fs
  | .nil => by intro acc _ _; simp [foldObj, JObj.toDoc]
  | .cons k v fs => by
    intro acc hdisj hnd
    simp only [noDupKeys, oKeys, Bool.and_eq_true, Bool.not_eq_true'] at hnd
    have hk : dMem acc k = false := hdisj k (by simp [oKeys])
    simp only [foldObj, JObj.toDoc]
    rw [dSet_eq_append_of_not_mem acc k v hk]
    rw [foldObj_append fs (acc ++ [(k, v)]) ?_ hnd.2]
    · simp
    · intro k' hk'
      have hne : k' ≠ k := by
        intro he
        rw [he] at hk'
        have hcont : (oKeys fs).contains k = true := List.elem_iff.mpr hk'
        rw [hnd.1] at hcont
        exact Bool.false_ne_true hcont
      have h1 : dMem acc k' = false := hdisj k' (by simp [oKeys, hk'])
      simp only [dMem, List.any_append, Bool.or_eq_false_iff]
      exact ⟨h1, by simp [Ne.symm hne]⟩

theorem hexVal_hexCh (d : Nat) (h : d < 16) : hexValCh (hexCh d) = some d := by
  interval_cases d <;> decide

theorem expectLit_append (p rest : Str) : expectLit p (p ++ rest) = some rest := by
  induction p with
  | nil => rfl
  | cons c cs ih => simp [expectLit, ih]

/-- Whitespace characters are not digits. -/
theorem ws_not_digit (c : Char) (h : isWsCh c = true) : isDigitCh c = false := by
  simp only [isWsCh, Bool.or_eq_true, beq_iff_eq] at h
  have hc : c = ' ' ∨ c = '\t' ∨ c = '\n' ∨ c = '\x0d' := by tauto
  rcases hc with h' | h' | h' | h' <;> subst h' <;> decide

/-- A digit character is none of the parser's special characters. -/
theorem digit_not_special (c : Char) (h : isDigitCh c = true) :
    (c == '\x7b') = false ∧ (c == '[') = false ∧ (c == '"') = false ∧
    (c == '-') = false ∧ isWsCh c = false ∧ (c == ']') = false ∧
    (c == '\x7d') = false ∧ (c == ',') = false ∧ (c == ':') = false := by
  have hb : 48 ≤ c.toNat ∧ c.toNat ≤ 57 := by simpa [isDigitCh] using h
  refine ⟨?_, ?_, ?_, ?_, ?_, ?_, ?_, ?_, ?_⟩
  · exact beq_eq_false_iff_ne.mpr (fun he => by subst he; revert hb; decide)
  · exact beq_eq_false_iff_ne.mpr (fun he => by subst he; revert hb; decide)
  · exact beq_eq_false_iff_ne.mpr (fun he => by subst he; revert hb; decide)
  · exact beq_eq_false_iff_ne.mpr (fun he => by subst he; revert hb; decide)
  · have h1 : (c == ' ') = false := beq_eq_false_iff_ne.mpr (fun he => by subst he; revert hb; decide)
    have h2 : (c == '\t') = false := beq_eq_false_iff_ne.mpr (fun he => by subst he; revert hb; decide)
    have h3 : (c == '\n') = false := beq_eq_false_iff_ne.mpr (fun he => by subst he; revert hb; decide)
    have h4 : (c == '\x0d') = false := beq_eq_false_iff_ne.mpr (fun he => by subst he; revert hb; decide)
    simp [isWsCh, h1, h2, h3, h4]
  · exact beq_eq_false_iff_ne.mpr (fun he => by subst he; revert hb; decide)
  · exact beq_eq_false_iff_ne.mpr (fun he => by subst he; revert hb; decide)
  · exact beq_eq_false_iff_ne.mpr (fun he => by subst he; revert hb; decide)
  · exact beq_eq_false_iff_ne.mpr (fun he => by subst he; revert hb; decide)

theorem natToStr_head_digit (n : Nat) :
    ∃ c t, natToStr n = c :: t ∧ isDigitCh c = true := by
  cases hh : natToStr n with
  | nil => exact absurd hh (natToStr_ne_nil n)
  | cons c t =>
    exact ⟨c, t, rfl, natToStr_digits n c (by rw [hh]; simp)⟩

/-- Decoding inverts `json.dumps` string escaping. -/
theorem parseStrBody_esc (s : Str) : ∀ rest : Str,
    parseStrBody (escBody s ++ '"' :: rest) = some (s, rest) := by
  induction s with
  | nil =>
    intro rest
    rw [escBody, List.nil_append, parseStrBody.eq_def]
    simp
  | cons c cs ih =>
    intro rest
    simp only [escBody, List.append_assoc]
    by_cases h1 : c = '"'
    · rw [show escCh c = ['\\', '"'] by simp [escCh, h1], List.cons_append, List.cons_append,
        List.nil_append, parseStrBody.eq_def]
      simp [ih rest, h1, parseStrBody.eq_def]
    · by_cases h2 : c = '\\'
      · rw [show escCh c = ['\\', '\\'] by simp [escCh, h1, h2], List.cons_append,
          List.cons_append, List.nil_append, parseStrBody.eq_def]
        simp [ih rest, h2]
      · by_cases h3 : c.toNat < 32
        · by_cases h4 : c = '\x08'
          · rw [show escCh c = ['\\', 'b'] by simp [escCh, h1, h2, h3, h4], List.cons_append,
              List.cons_append, List.nil_append, parseStrBody.eq_def]
            simp [ih rest, h4]
          · by_cases h5 : c = '\x0c'
            · rw [show escCh c = ['\\', 'f'] by simp [escCh, h1, h2, h3, h4, h5],
                List.cons_append, List.cons_append, List.nil_append, parseStrBody.eq_def]
              simp [ih rest, h5]
            · by_cases h6 : c = '\n'
              · rw [show escCh c = ['\\', 'n'] by simp [escCh, h1, h2, h3, h4, h5, h6],
                  List.cons_append, List.cons_append, List.nil_append, parseStrBody.eq_def]
                simp [ih rest, h6]
              · by_cases h7 : c = '\x0d'
                · rw [show escCh c = ['\\', 'r'] by simp [escCh, h1, h2, h3, h4, h5, h6, h7],
                    List.cons_append, List.cons_append, List.nil_append, parseStrBody.eq_def]
                  simp [ih rest, h7]
                · by_cases h8 : c = '\t'
                  · rw [show escCh c = ['\\', 't'] by simp [escCh, h1, h2, h3, h4, h5, h6, h7, h8],
                      List.cons_append, List.cons_append, List.nil_append, parseStrBody.eq_def]
                    simp [ih rest, h8]
                  · rw [show escCh c =
                        ['\\', 'u', '0', '0', hexCh (c.toNat / 16), hexCh (c.toNat % 16)] by
                          simp [escCh, h1, h2, h3, h4, h5, h6, h7, h8]]
                    have hx3 : hexValCh (hexCh (c.toNat / 16)) = some (c.toNat / 16) :=
                      hexVal_hexCh _ (by omega)
                    have hx4 : hexValCh (hexCh (c.toNat % 16)) = some (c.toNat % 16) :=
                      hexVal_hexCh _ (by omega)
                    have hn : ((0 * 16 + 0) * 16 + c.toNat / 16) * 16 + c.toNat % 16 = c.toNat := by
                      omega
                    have hsur : ¬(55296 ≤ ((0 * 16 + 0) * 16 + c.toNat / 16) * 16 + c.toNat % 16 ∧
                        ((0 * 16 + 0) * 16 + c.toNat / 16) * 16 + c.toNat % 16 < 57344) := by omega
                    have h00 : hexValCh '0' = some 0 := rfl
                    rw [List.cons_append, List.cons_append, List.cons_append, List.cons_append,
                      List.cons_append, List.cons_append, List.nil_append, parseStrBody.eq_def]
                    simp [h00, hx3, hx4, hsur, hn, Char.ofNat_toNat, ih rest]
                    constructor
                    · omega
                    · rw [show c.toNat / 16 * 16 + c.toNat % 16 = c.toNat by omega]
                      exact Char.ofNat_toNat c
        · rw [show escCh c = [c] by simp [escCh, h1, h2, h3], List.cons_append, List.nil_append,
            parseStrBody.eq_def]
          have hq : (c == '"') = false := by simp [h1]
          have hb : (c == '\\') = false := by simp [h2]
          simp [hq, hb, h3, ih rest]

/-- Decoding inverts Python `str` on integers (given that no digit
follows the numeral). -/
theorem parseVal_num (fuel : Nat) (n : Int) (rest : Str) (hrest : headNotDigit rest) :
    parseVal (fuel + 1) (intToStr n ++ rest) = some (J.num n, rest) := by
  obtain ⟨c, t, hct, hdig⟩ := natToStr_head_digit n.natAbs
  have hall : ∀ x ∈ natToStr n.natAbs, isDigitCh x = true := natToStr_digits _
  obtain ⟨s1, s2, s3, s4, s5, s6, s7, s8, s9⟩ := digit_not_special c hdig
  have htail : ∀ x ∈ t, isDigitCh x = true := by
    intro x hx
    exact hall x (by rw [hct]; simp [hx])
  have htake : takeDigits (t ++ rest) = (t, rest) := takeDigits_append t htail rest hrest
  by_cases hneg : n < 0
  · have htakeF : takeDigits (natToStr n.natAbs ++ rest) = (c :: t, rest) := by
      rw [takeDigits_append _ hall rest hrest, hct]
    have hc0 : (c == '0') = false := by
      refine beq_eq_false_iff_ne.mpr (fun he => ?_)
      have h0 := natToStr_head_zero n.natAbs t (he ▸ hct)
      omega
    have hval : valOfDigits (c :: t) = n.natAbs := by rw [← hct]; exact valOfDigits_natToStr _
    have hres : -((n.natAbs : Int)) = n := by omega
    rw [intToStr, if_pos hneg, List.cons_append, parseVal.eq_def]
    simp [htakeF, hc0, hval, hres]
    rw [abs_of_nonpos (by omega)]
    ring
  · have hzero : (c == '0' && !t.isEmpty) = false := by
      by_cases hc : c = '0'
      · have h0 := natToStr_head_zero n.natAbs t (hc ▸ hct)
        simp [h0.2]
      · simp [hc]
    have hval : valOfDigits (c :: t) = n.natAbs := by rw [← hct]; exact valOfDigits_natToStr _
    have hres : ((n.natAbs : Int)) = n := by omega
    rw [intToStr, if_neg hneg, hct, List.cons_append, parseVal.eq_def]
    simp [s1, s2, s3, s4, hdig, htake, hzero, hval, hres]

/-- A rendered value starts with a non-whitespace, non-structural character. -/
theorem renderJ_head (cfg : WsCfg) (d : Nat) (v : J) :
    ∃ c t, renderJ cfg d v = c :: t ∧ isWsCh c = false ∧ (c == ']') = false ∧
      (c == '\x7d') = false ∧ (c == ',') = false ∧ (c == ':') = false := by
  cases v with
  | null =>
    exact ⟨'n', ['u', 'l', 'l'], rfl, by decide, by decide, by decide, by decide, by decide⟩
  | bool b =>
    cases b with
    | true =>
      exact ⟨'t', ['r', 'u', 'e'], rfl, by decide, by decide, by decide, by decide, by decide⟩
    | false =>
      exact ⟨'f', ['a', 'l', 's', 'e'], rfl, by decide, by decide, by decide, by decide,
        by decide⟩
  | num n =>
    by_cases hneg : n < 0
    · exact ⟨'-', natToStr n.natAbs,
        by rw [show renderJ cfg d (J.num n) = intToStr n from rfl, intToStr, if_pos hneg],
        by decide, by decide, by decide, by decide, by decide⟩
    · obtain ⟨c, t, hct, hdig⟩ := natToStr_head_digit n.natAbs
      obtain ⟨_, _, _, _, s5, s6, s7, s8, s9⟩ := digit_not_special c hdig
      exact ⟨c, t,
        by rw [show renderJ cfg d (J.num n) = intToStr n from rfl, intToStr, if_neg hneg, hct],
        s5, s6, s7, s8, s9⟩
  | str s => exact ⟨'"', _, rfl, by decide, by decide, by decide, by decide, by decide⟩
  | arr xs =>
    cases xs with
    | nil => exact ⟨'[', _, rfl, by decide, by decide, by decide, by decide, by decide⟩
    | cons x xs => exact ⟨'[', _, rfl, by decide, by decide, by decide, by decide, by decide⟩
  | obj fs =>
    cases fs with
    | nil => exact ⟨'\x7b', _, rfl, by decide, by decide, by decide, by decide, by decide⟩
    | cons k v fs => exact ⟨'\x7b', _, rfl, by decide, by decide, by decide, by decide, by decide⟩

theorem skipWs_render (cfg : WsCfg) (d : Nat) (v : J) (rest : Str) :
    skipWs (renderJ cfg d v ++ rest) = renderJ cfg d v ++ rest := by
  obtain ⟨c, t, hct, hws, _⟩ := renderJ_head cfg d v
  rw [hct, List.cons_append, skipWs_not_ws c _ hws]

theorem headNotDigit_ws_cons (w : Str) (hw : ∀ c ∈ w, isWsCh c = true) (c : Char)
    (hc : isDigitCh c = false) (s : Str) : headNotDigit (w ++ c :: s) := by
  cases w with
  | nil => exact hc
  | cons x xs => exact ws_not_digit x (hw x (by simp))

theorem headNotDigit_items (cfg : WsCfg) (d : Nat) (xs : JList) (w : Str)
    (hw : ∀ c ∈ w, isWsCh c = true) (rest : Str) :
    headNotDigit (renderItems cfg d xs ++ (w ++ (']' :: rest))) := by
  cases xs with
  | nil =>
    rw [show renderItems cfg d JList.nil = [] from rfl, List.nil_append]
    exact headNotDigit_ws_cons w hw ']' (by decide) rest
  | cons x xs =>
    rw [show renderItems cfg d (JList.cons x xs) =
      ',' :: (cfg.afterComma d ++ renderJ cfg d x ++ renderItems cfg d xs) from rfl]
    exact (by decide : isDigitCh ',' = false)

theorem headNotDigit_fields (cfg : WsCfg) (d : Nat) (fs : JObj) (w : Str)
    (hw : ∀ c ∈ w, isWsCh c = true) (rest : Str) :
    headNotDigit (renderFields cfg d fs ++ (w ++ ('\x7d' :: rest))) := by
  cases fs with
  | nil =>
    rw [show renderFields cfg d JObj.nil = [] from rfl, List.nil_append]
    exact headNotDigit_ws_cons w hw '\x7d' (by decide) rest
  | cons k v fs =>
    rw [show renderFields cfg d (JObj.cons k v fs) =
      ',' :: (cfg.afterComma d ++ renderQ k ++ ':' :: ' ' ::
        (renderJ cfg d v ++ renderFields cfg d fs)) from rfl]
    exact (by decide : isDigitCh ',' = false)

theorem parseVal_obrk (f : Nat) (s : Str) :
    parseVal (f + 1) ('[' :: s) = parseArrStart f (skipWs s) := by
  rw [parseVal.eq_def]
  simp

theorem parseVal_obrc (f : Nat) (s : Str) :
    parseVal (f + 1) ('\x7b' :: s) = parseObjStart f (skipWs s) := by
  rw [parseVal.eq_def]
  simp

/-- One-step unfoldings of the fuel-indexed parser functions. -/
theorem parseArrRest_succ (g : Nat) (s : Str) :
    parseArrRest (g + 1) s =
      match skipWs s with
      | [] => none
      | c :: cs =>
        if c == ']' then some (JList.nil, cs)
        else if c == ',' then
          match parseVal g (skipWs cs) with
          | none => none
          | some (v, r) =>
            match parseArrRest g r with
            | none => none
            | some (vs, r2) => some (JList.cons v vs, r2)
        else none := rfl

theorem parseObjRest_succ (g : Nat) (acc : Doc J) (s : Str) :
    parseObjRest (g + 1) acc s =
      match skipWs s with
      | [] => none
      | c :: cs =>
        if c == '\x7d' then some (acc, cs)
        else if c == ',' then
          match parseMember g (skipWs cs) with
          | none => none
          | some (k, v, r) => parseObjRest g (dSet acc k v) r
        else none := rfl

/-- Joint round trip: at sufficient fuel the decoder inverts the encoder
for any whitespace layout, any depth, and any non-digit continuation. -/
theorem parse_render (fuel : Nat) :
    (∀ cfg : WsCfg, cfg.ok → ∀ d v rest, jwf v = true → jneed v ≤ fuel → headNotDigit rest →
      parseVal fuel (renderJ cfg d v ++ rest) = some (v, rest)) ∧
    (∀ cfg : WsCfg, cfg.ok → ∀ d xs w rest, jlwf xs = true → (∀ c ∈ w, isWsCh c = true) →
      jlneed xs + 1 ≤ fuel →
      parseArrRest fuel (renderItems cfg d xs ++ (w ++ (']' :: rest))) = some (xs, rest)) ∧
    (∀ cfg : WsCfg, cfg.ok → ∀ d k v rest, jwf v = true → jneed v + 2 ≤ fuel →
      headNotDigit rest →
      parseMember fuel (renderQ k ++ (':' :: ' ' :: (renderJ cfg d v ++ rest))) =
        some (k, v, rest)) ∧
    (∀ cfg : WsCfg, cfg.ok → ∀ d fs w rest acc, jowf fs = true → (∀ c ∈ w, isWsCh c = true) →
      joneed fs + 1 ≤ fuel →
      parseObjRest fuel acc (renderFields cfg d fs ++ (w ++ ('\x7d' :: rest))) =
        some (foldObj acc fs, rest)) := by
  induction fuel using Nat.strong_induction_on with
  | _ fuel IH =>
    refine ⟨?_, ?_, ?_, ?_⟩
    · -- parseVal
      intro cfg hcfg d v rest hwf hneed hrest
      have hpos := jneed_pos v
      cases fuel with
      | zero => omega
      | succ f =>
        cases v with
        | null =>
          rw [show renderJ cfg d J.null = ['n', 'u', 'l', 'l'] from rfl]
          simp only [List.cons_append, List.nil_append]
          rw [parseVal.eq_def]
          simp [expectLit, (by decide : isDigitCh 'n' = false)]
        | bool b =>
          cases b with
          | true =>
            rw [show renderJ cfg d (J.bool true) = ['t', 'r', 'u', 'e'] from rfl]
            simp only [List.cons_append, List.nil_append]
            rw [parseVal.eq_def]
            simp [expectLit, (by decide : isDigitCh 't' = false)]
          | false =>
            rw [show renderJ cfg d (J.bool false) = ['f', 'a', 'l', 's', 'e'] from rfl]
            simp only [List.cons_append, List.nil_append]
            rw [parseVal.eq_def]
            simp [expectLit, (by decide : isDigitCh 'f' = false)]
        | num n =>
          rw [show renderJ cfg d (J.num n) = intToStr n from rfl]
          exact parseVal_num f n rest hrest
        | str s =>
          rw [show renderJ cfg d (J.str s) = renderQ s from rfl, renderQ]
          simp only [List.cons_append, List.append_assoc, List.singleton_append, List.nil_append]
          rw [parseVal.eq_def]
          simp [parseStrBody_esc s rest]
        | arr xs =>
          cases xs with
          | nil =>
            have hf : 1 ≤ f := by
              rw [show jneed (J.arr JList.nil) = 2 from rfl] at hneed
              omega
            rw [show renderJ cfg d (J.arr JList.nil) = ['[', ']'] from rfl]
            simp only [List.cons_append, List.nil_append]
            rw [parseVal_obrk, skipWs_not_ws ']' rest (by decide)]
            cases f with
            | zero => omega
            | succ g =>
              rw [parseArrStart.eq_def]
              simp
          | cons x xs' =>
            have hx : jwf x = true ∧ jlwf xs' = true := by
              have h0 : jlwf (JList.cons x xs') = true := hwf
              rw [show jlwf (JList.cons x xs') = (jwf x && jlwf xs') from rfl] at h0
              simpa using h0
            have hneed' : 3 + jneed x + jlneed xs' ≤ f + 1 := by
              rw [show jneed (J.arr (JList.cons x xs')) =
                3 + jneed x + jlneed xs' from by
                  rw [show jneed (J.arr (JList.cons x xs')) =
                    2 + jlneed (JList.cons x xs') from rfl,
                    show jlneed (JList.cons x xs') = 1 + jneed x + jlneed xs' from rfl]
                  omega] at hneed
              exact hneed
            have hxpos := jneed_pos x
            rw [show renderJ cfg d (J.arr (JList.cons x xs')) =
              '[' :: (cfg.afterOpen (d + 1) ++ renderJ cfg (d + 1) x ++
                renderItems cfg (d + 1) xs' ++ cfg.beforeClose d ++ [']']) from rfl]
            simp only [List.cons_append, List.append_assoc, List.singleton_append, List.nil_append]
            rw [parseVal_obrk, skipWs_append _ ((hcfg (d + 1)).1), skipWs_render]
            cases f with
            | zero => omega
            | succ g =>
              obtain ⟨c0, t0, hc0, _, hbrk, _, _, _⟩ := renderJ_head cfg (d + 1) x
              have hv := (IH g (by omega)).1 cfg hcfg (d + 1) x
                (renderItems cfg (d + 1) xs' ++ (cfg.beforeClose d ++ (']' :: rest)))
                hx.1 (by omega)
                (headNotDigit_items cfg (d + 1) xs' (cfg.beforeClose d) ((hcfg d).2.2) rest)
              have hr := (IH g (by omega)).2.1 cfg hcfg (d + 1) xs'
                (cfg.beforeClose d) rest hx.2 ((hcfg d).2.2) (by omega)
              rw [hc0, List.cons_append] at hv
              rw [parseArrStart.eq_def, hc0, List.cons_append]
              simp [hbrk, hv, hr]
        | obj fs =>
          cases fs with
          | nil =>
            have hf : 1 ≤ f := by
              rw [show jneed (J.obj JObj.nil) = 3 from rfl] at hneed
              omega
            rw [show renderJ cfg d (J.obj JObj.nil) = ['\x7b', '\x7d'] from rfl]
            simp only [List.cons_append, List.nil_append]
            rw [parseVal_obrc, skipWs_not_ws '\x7d' rest (by decide)]
            cases f with
            | zero => omega
            | succ g =>
              rw [parseObjStart.eq_def]
              simp
          | cons k v fs' =>
            have hdec : (oKeys fs').contains k = false ∧ noDupKeys (oKeys fs') = true ∧
                jwf v = true ∧ jowf fs' = true := by
              have h0 : (noDupKeys (oKeys (JObj.cons k v fs')) &&
                  jowf (JObj.cons k v fs')) = true := hwf
              rw [show oKeys (JObj.cons k v fs') = k :: oKeys fs' from rfl,
                show noDupKeys (k :: oKeys fs') =
                  (!(oKeys fs').contains k && noDupKeys (oKeys fs')) from rfl,
                show jowf (JObj.cons k v fs') = (jwf v && jowf fs') from rfl] at h0
              simp only [Bool.and_eq_true, Bool.not_eq_true'] at h0
              exact ⟨h0.1.1, h0.1.2, h0.2.1, h0.2.2⟩
            have hneed' : 5 + jneed v + joneed fs' ≤ f + 1 := by
              rw [show jneed (J.obj (JObj.cons k v fs')) =
                3 + joneed (JObj.cons k v fs') from rfl,
                show joneed (JObj.cons k v fs') = 2 + jneed v + joneed fs' from rfl] at hneed
              omega
            have hvpos := jneed_pos v
            rw [show renderJ cfg d (J.obj (JObj.cons k v fs')) =
              '\x7b' :: (cfg.afterOpen (d + 1) ++ renderQ k ++ ':' :: ' ' ::
                (renderJ cfg (d + 1) v ++ renderFields cfg (d + 1) fs' ++
                  cfg.beforeClose d ++ ['\x7d'])) from rfl]
            simp only [List.cons_append, List.append_assoc, List.singleton_append, List.nil_append]
            rw [parseVal_obrc, skipWs_append _ ((hcfg (d + 1)).1)]
            rw [show skipWs (renderQ k ++ (':' :: ' ' ::
              (renderJ cfg (d + 1) v ++ (renderFields cfg (d + 1) fs' ++
                (cfg.beforeClose d ++ ('\x7d' :: rest)))))) =
              renderQ k ++ (':' :: ' ' :: (renderJ cfg (d + 1) v ++
                (renderFields cfg (d + 1) fs' ++ (cfg.beforeClose d ++ ('\x7d' :: rest)))))
              from by rw [renderQ, List.cons_append, skipWs_not_ws '"' _ (by decide)]]
            cases f with
            | zero => omega
            | succ g =>
              have hm := (IH g (by omega)).2.2.1 cfg hcfg (d + 1) k v
                (renderFields cfg (d + 1) fs' ++ (cfg.beforeClose d ++ ('\x7d' :: rest)))
                hdec.2.2.1 (by omega)
                (headNotDigit_fields cfg (d + 1) fs' (cfg.beforeClose d) ((hcfg d).2.2) rest)
              have ho := (IH g (by omega)).2.2.2 cfg hcfg (d + 1) fs'
                (cfg.beforeClose d) rest (dSet [] k v) hdec.2.2.2 ((hcfg d).2.2) (by omega)
              have hfold : foldObj (dSet [] k v) fs' = (k, v) :: JObj.toDoc fs' := by
                rw [show dSet ([] : Doc J) k v = [(k, v)] from rfl]
                rw [foldObj_append fs' [(k, v)] ?_ hdec.2.1]
                · simp
                · intro k2 hk2
                  have hne : (k == k2) = false := by
                    refine beq_eq_false_iff_ne.mpr (fun he => ?_)
                    have hc2 : (oKeys fs').contains k2 = true := List.elem_iff.mpr hk2
                    rw [← he, hdec.1] at hc2
                    exact Bool.false_ne_true hc2
                  simp [dMem, hne]
              rw [parseObjStart.eq_def, renderQ, List.cons_append]
              rw [renderQ] at hm
              simp only [List.cons_append, List.append_assoc, List.singleton_append,
                List.nil_append] at hm
              simp [hm, ho, hfold, JObj.ofL, JObj.ofL_toDoc]
    · -- parseArrRest
      intro cfg hcfg d xs w rest hwf hw hneed
      cases fuel with
      | zero => omega
      | succ g =>
        cases xs with
        | nil =>
          rw [show renderItems cfg d JList.nil = [] from rfl, List.nil_append,
            parseArrRest_succ, skipWs_append w hw, skipWs_not_ws ']' rest (by decide)]
          simp
        | cons x xs' =>
          have hx : jwf x = true ∧ jlwf xs' = true := by
            have h0 : (jwf x && jlwf xs') = true := hwf
            simpa using h0
          have hneed' : 1 + jneed x + jlneed xs' + 1 ≤ g + 1 := by
            rw [show jlneed (JList.cons x xs') = 1 + jneed x + jlneed xs' from rfl] at hneed
            exact hneed
          have hxpos := jneed_pos x
          rw [show renderItems cfg d (JList.cons x xs') =
            ',' :: (cfg.afterComma d ++ renderJ cfg d x ++ renderItems cfg d xs') from rfl]
          simp only [List.cons_append, List.append_assoc, List.nil_append]
          have hv := (IH g (by omega)).1 cfg hcfg d x
            (renderItems cfg d xs' ++ (w ++ (']' :: rest))) hx.1 (by omega)
            (headNotDigit_items cfg d xs' w hw rest)
          have hr := (IH g (by omega)).2.1 cfg hcfg d xs' w rest hx.2 hw (by omega)
          rw [parseArrRest_succ, skipWs_not_ws ',' _ (by decide)]
          simp [skipWs_append _ ((hcfg d).2.1), skipWs_render, hv, hr]
    · -- parseMember
      intro cfg hcfg d k v rest hwf hneed hrest
      cases fuel with
      | zero => omega
      | succ m =>
        have hv := (IH m (by omega)).1 cfg hcfg d v rest hwf (by omega) hrest
        have hsb := parseStrBody_esc k (':' :: ' ' :: (renderJ cfg d v ++ rest))
        have hsp : skipWs (' ' :: (renderJ cfg d v ++ rest)) = renderJ cfg d v ++ rest := by
          rw [show skipWs (' ' :: (renderJ cfg d v ++ rest)) =
            skipWs (renderJ cfg d v ++ rest) from by rw [skipWs]; simp [isWsCh],
            skipWs_render]
        rw [renderQ]
        simp only [List.cons_append, List.append_assoc, List.singleton_append, List.nil_append]
        rw [parseMember.eq_def]
        simp [hsb, hsp, hv, skipWs_not_ws ':' _ (by decide)]
    · -- parseObjRest
      intro cfg hcfg d fs w rest acc hwf hw hneed
      cases fuel with
      | zero => omega
      | succ g =>
        cases fs with
        | nil =>
          rw [show renderFields cfg d JObj.nil = [] from rfl, List.nil_append,
            parseObjRest_succ, skipWs_append w hw, skipWs_not_ws '\x7d' rest (by decide)]
          simp [foldObj]
        | cons k v fs' =>
          have hx : jwf v = true ∧ jowf fs' = true := by
            have h0 : (jwf v && jowf fs') = true := hwf
            simpa using h0
          have hneed' : 2 + jneed v + joneed fs' + 1 ≤ g + 1 := by
            rw [show joneed (JObj.cons k v fs') = 2 + jneed v + joneed fs' from rfl] at hneed
            exact hneed
          have hvpos := jneed_pos v
          rw [show renderFields cfg d (JObj.cons k v fs') =
            ',' :: (cfg.afterComma d ++ renderQ k ++ ':' :: ' ' ::
              (renderJ cfg d v ++ renderFields cfg d fs')) from rfl]
          simp only [List.cons_append, List.append_assoc, List.nil_append]
          have hm := (IH g (by omega)).2.2.1 cfg hcfg d k v
            (renderFields cfg d fs' ++ (w ++ ('\x7d' :: rest))) hx.1 (by omega)
            (headNotDigit_fields cfg d fs' w hw rest)
          have ho := (IH g (by omega)).2.2.2 cfg hcfg d fs' w rest (dSet acc k v)
            hx.2 hw (by omega)
          have hskq : skipWs (renderQ k ++ (':' :: ' ' ::
              (renderJ cfg d v ++ (renderFields cfg d fs' ++ (w ++ ('\x7d' :: rest)))))) =
            renderQ k ++ (':' :: ' ' ::
              (renderJ cfg d v ++ (renderFields cfg d fs' ++ (w ++ ('\x7d' :: rest))))) := by
            rw [renderQ, List.cons_append, skipWs_not_ws '"' _ (by decide)]
          rw [parseObjRest_succ, skipWs_not_ws ',' _ (by decide)]
          simp [skipWs_append _ ((hcfg d).2.1), hskq, hm, ho, foldObj]

theorem intToStr_len (n : Int) : 1 ≤ (intToStr n).length := by
  rw [intToStr]
  split
  · simp
  · cases hh : natToStr n.natAbs with
    | nil => exact absurd hh (natToStr_ne_nil _)
    | cons c t => simp

theorem renderQ_len (k : Str) : (renderQ k).length = 2 + (escBody k).length := by
  simp [renderQ]
  omega

/-- The fuel a value needs is at most twice its rendered length. -/
theorem jneed_le_render (n : Nat) :
    (∀ cfg : WsCfg, ∀ d v, sizeOf (v : J) < n → jneed v ≤ 2 * (renderJ cfg d v).length) ∧
    (∀ cfg : WsCfg, ∀ d xs, sizeOf (xs : JList) < n →
      jlneed xs ≤ 2 * (renderItems cfg d xs).length) ∧
    (∀ cfg : WsCfg, ∀ d fs, sizeOf (fs : JObj) < n →
      joneed fs ≤ 2 * (renderFields cfg d fs).length) := by
  induction n using Nat.strong_induction_on with
  | _ n IH =>
    refine ⟨?_, ?_, ?_⟩
    · intro cfg d v hsz
      cases v with
      | null =>
        rw [show jneed J.null = 1 from rfl, show renderJ cfg d J.null = lit "null" from rfl,
          show (lit "null").length = 4 from rfl]
        omega
      | bool b =>
        cases b with
        | true =>
          rw [show jneed (J.bool true) = 1 from rfl,
            show renderJ cfg d (J.bool true) = lit "true" from rfl,
            show (lit "true").length = 4 from rfl]
          omega
        | false =>
          rw [show jneed (J.bool false) = 1 from rfl,
            show renderJ cfg d (J.bool false) = lit "false" from rfl,
            show (lit "false").length = 5 from rfl]
          omega
      | num m =>
        have := intToStr_len m
        rw [show renderJ cfg d (J.num m) = intToStr m from rfl]
        rw [show jneed (J.num m) = 1 from rfl]
        omega
      | str s =>
        rw [show renderJ cfg d (J.str s) = renderQ s from rfl]
        rw [show jneed (J.str s) = 1 from rfl, renderQ_len]
        omega
      | arr xs =>
        have hszx : sizeOf xs + 1 < n := by
          have : sizeOf (J.arr xs) = 1 + sizeOf xs := by simp
          omega
        have hxs := (IH (sizeOf xs + 1) (by omega)).2.1 cfg (d + 1) xs (by omega)
        cases xs with
        | nil => simp [jneed, jlneed, renderJ]
        | cons x xs2 =>
          have hszx2 : sizeOf x + 1 < n ∧ sizeOf xs2 + 1 < n := by
            have h1 : sizeOf (J.arr (JList.cons x xs2)) = 1 + (1 + sizeOf x + sizeOf xs2) := by
              simp
            constructor <;> omega
          have hx := (IH (sizeOf x + 1) (by omega)).1 cfg (d + 1) x (by omega)
          have hx2 := (IH (sizeOf xs2 + 1) (by omega)).2.1 cfg (d + 1) xs2 (by omega)
          rw [show jneed (J.arr (JList.cons x xs2)) =
            2 + (1 + jneed x + jlneed xs2) from rfl]
          rw [show renderJ cfg d (J.arr (JList.cons x xs2)) =
            '[' :: (cfg.afterOpen (d + 1) ++ renderJ cfg (d + 1) x ++
              renderItems cfg (d + 1) xs2 ++ cfg.beforeClose d ++ [']']) from rfl]
          simp only [List.length_cons, List.length_append, List.length_singleton]
          omega
      | obj fs =>
        cases fs with
        | nil => simp [jneed, joneed, renderJ]
        | cons k v fs2 =>
          have hszx2 : sizeOf v + 1 < n ∧ sizeOf fs2 + 1 < n := by
            have h1 : sizeOf (J.obj (JObj.cons k v fs2)) =
                1 + (1 + sizeOf k + sizeOf v + sizeOf fs2) := by simp
            have h2 : 0 ≤ sizeOf k := by omega
            constructor <;> omega
          have hv := (IH (sizeOf v + 1) (by omega)).1 cfg (d + 1) v (by omega)
          have hf2 := (IH (sizeOf fs2 + 1) (by omega)).2.2 cfg (d + 1) fs2 (by omega)
          rw [show jneed (J.obj (JObj.cons k v fs2)) =
            3 + (2 + jneed v + joneed fs2) from rfl]
          rw [show renderJ cfg d (J.obj (JObj.cons k v fs2)) =
            '\x7b' :: (cfg.afterOpen (d + 1) ++ renderQ k ++ ':' :: ' ' ::
              (renderJ cfg (d + 1) v ++ renderFields cfg (d + 1) fs2 ++
                cfg.beforeClose d ++ ['\x7d'])) from rfl]
          have hq := renderQ_len k
          simp only [List.length_cons, List.length_append, List.length_singleton]
          omega
    · intro cfg d xs hsz
      cases xs with
      | nil => simp [jlneed, renderItems]
      | cons x xs2 =>
        have hszx2 : sizeOf x + 1 < n ∧ sizeOf xs2 + 1 < n := by
          have h1 : sizeOf (JList.cons x xs2) = 1 + sizeOf x + sizeOf xs2 := by simp
          constructor <;> omega
        have hx := (IH (sizeOf x + 1) (by omega)).1 cfg d x (by omega)
        have hx2 := (IH (sizeOf xs2 + 1) (by omega)).2.1 cfg d xs2 (by omega)
        rw [show jlneed (JList.cons x xs2) = 1 + jneed x + jlneed xs2 from rfl]
        rw [show renderItems cfg d (JList.cons x xs2) =
          ',' :: (cfg.afterComma d ++ renderJ cfg d x ++ renderItems cfg d xs2) from rfl]
        simp only [List.length_cons, List.length_append]
        omega
    · intro cfg d fs hsz
      cases fs with
      | nil => simp [joneed, renderFields]
      | cons k v fs2 =>
        have hszx2 : sizeOf v + 1 < n ∧ sizeOf fs2 + 1 < n := by
          have h1 : sizeOf (JObj.cons k v fs2) = 1 + sizeOf k + sizeOf v + sizeOf fs2 := by
            simp
          have h2 : 0 ≤ sizeOf k := by omega
          constructor <;> omega
        have hv := (IH (sizeOf v + 1) (by omega)).1 cfg d v (by omega)
        have hf2 := (IH (sizeOf fs2 + 1) (by omega)).2.2 cfg d fs2 (by omega)
        rw [show joneed (JObj.cons k v fs2) = 2 + jneed v + joneed fs2 from rfl]
        rw [show renderFields cfg d (JObj.cons k v fs2) =
          ',' :: (cfg.afterComma d ++ renderQ k ++ ':' :: ' ' ::
            (renderJ cfg d v ++ renderFields cfg d fs2)) from rfl]
        have hq := renderQ_len k
        simp only [List.length_cons, List.length_append]
        omega

/-- `json.loads` inverts `json.dumps` (compact layout) on any
well-formed document. -/
theorem loads_dumpsCompact (v : J) (h : jwf v = true) : loads (dumpsCompact v) = some v := by
  have hb := (jneed_le_render (sizeOf v + 1)).1 compactCfg 0 v (by omega)
  have hp := (parse_render (2 * (renderJ compactCfg 0 v).length + 2)).1 compactCfg
    compactCfg_ok 0 v [] h (by omega) trivial
  rw [List.append_nil] at hp
  have hskip : skipWs (renderJ compactCfg 0 v) = renderJ compactCfg 0 v := by
    have := skipWs_render compactCfg 0 v []
    simpa using this
  rw [loads, dumpsCompact, hskip, hp]
  simp [skipWs]

/-- `json.loads` inverts `json.dumps` (indent=2 layout) on any
well-formed document. -/
theorem loads_dumpsIndent (v : J) (h : jwf v = true) : loads (dumpsIndent v) = some v := by
  have hb := (jneed_le_render (sizeOf v + 1)).1 indentCfg 0 v (by omega)
  have hp := (parse_render (2 * (renderJ indentCfg 0 v).length + 2)).1 indentCfg
    indentCfg_ok 0 v [] h (by omega) trivial
  rw [List.append_nil] at hp
  have hskip : skipWs (renderJ indentCfg 0 v) = renderJ indentCfg 0 v := by
    have := skipWs_render indentCfg 0 v []
    simpa using this
  rw [loads, dumpsIndent, hskip, hp]
  simp [skipWs]

/-! ### KV store backends

`db_kv.py`: one row per key in the `kv_store` table, `value` holding
`json.dumps(value, ensure_ascii=False)`; `set_json` upserts, `get_json`
returns the caller's default when the row is absent or its text fails
to parse.  `bot.py` file backend: one file per resolved name written by
`_atomic_write_json` (`json.dumps(..., ensure_ascii=False, indent=2)`
to a temp file, then `os.replace` — the rename is atomic at the OS
level and outside this model), read back by `load_json`, which returns
`None` on a missing file or a parse failure.  `save_json` and
`load_json` resolve a logical name to the same path, so the round trip
is stated over the resolved path. -/

/-- `db_kv.set_json`: upsert of the compact JSON encoding. -/
def dbSetJson (tbl : Doc Str) (key : Str) (v : J) : Doc Str :=
  dSet tbl key (dumpsCompact v)

/-- `db_kv.get_json`: decode the stored text, falling back to `default`
when the row is absent or `json.loads` raises. -/
def dbGetJson (tbl : Doc Str) (key : Str) (default : Option J) : Option J :=
  match dGet tbl key with
  | none => default
  | some txt =>
    match loads txt with
    | some v => some v
    | none => default

/-- `save_json` (file backend): `_atomic_write_json` of the indented
JSON encoding under the resolved path. -/
def saveJsonFile (files : Doc Str) (path : Str) (v : J) : Doc Str :=
  dSet files path (dumpsIndent v)

/-- `load_json` (file backend): `None` when the file is missing or
fails to parse, the decoded document otherwise. -/
def loadJsonFile (files : Doc Str) (path : Str) : Option J :=
  match dGet files path with
  | none => none
  | some txt => loads txt

theorem dbGetJson_dbSetJson (tbl : Doc Str) (key : Str) (v : J) (default : Option J)
    (h : jwf v = true) : dbGetJson (dbSetJson tbl key v) key default = some v := by
  unfold dbGetJson dbSetJson
  rw [dGet_dSet_self]
  simp [loads_dumpsCompact v h]

theorem loadJsonFile_saveJsonFile (files : Doc Str) (path : Str) (v : J)
    (h : jwf v = true) : loadJsonFile (saveJsonFile files path v) path = some v := by
  unfold loadJsonFile saveJsonFile
  rw [dGet_dSet_self]
  simp [loads_dumpsIndent v h]

/-! ### Bot data model (bot.py)

Only the fields the verified operations read or write are modelled.
An absent JSON field is represented by its read default, matching
every access in the source (`.get("balance", 0)`, `.get("sub")`,
`.get("await_key")`). -/

/-- The stored `expire_at` field of a subscription: JSON `None`, a
string `strptime` rejects (including the empty string), or a
well-formed `"%Y-%m-%d %H:%M:%S"` string denoting timestamp `t`. -/
inductive ExpVal where
  | null : ExpVal
  | malformed : ExpVal
  | valid (t : Int) : ExpVal
deriving DecidableEq

/-- A user's `sub` record: `type`, `expire_at`, `key`. -/
structure SubRec where
  type : Str
  expire_at : ExpVal
  key : Str
deriving DecidableEq

/-- A `users.json` record (balance, subscription, awaiting-key flag). -/
structure User where
  balance : ℚ := 0
  sub : Option SubRec := none
  await_key : Bool := false
deriving DecidableEq

/-- A `withdraw_requests.json` record. -/
structure WReq where
  user_id : Str
  amount : ℚ
  status : Str
  created_at : Int
deriving DecidableEq

/-- A `withdraw_log.json` record: the request snapshot (its status
already flipped) plus `processed_at` and `action`. -/
structure LogEntry where
  user_id : Str
  amount : ℚ
  status : Str
  created_at : Int
  processed_at : Int
  action : Str
deriving DecidableEq

/-- A `keys.json` record. -/
structure KeyMeta where
  type : Str
  created_at : Int
  used_by : Option Str := none
  used_at : Option Int := none
deriving DecidableEq

/-- The persisted documents the verified operations touch. -/
structure St where
  users : Doc User
  keys : Doc KeyMeta
  withdraw_requests : Doc WReq
  withdraw_log : Doc LogEntry
deriving DecidableEq

/-- `(users.get(uid, ...) or ...).get("balance", 0)`. -/
def balOf (users : Doc User) (uid : Str) : ℚ :=
  match dGet users uid with
  | none => 0
  | some u => u.balance

/-- `(users.get(uid, ...) or ...).get("sub")`; `none` covers both an
absent user and an absent or falsy `sub` field. -/
def subOf (users : Doc User) (uid : Str) : Option SubRec :=
  match dGet users uid with
  | none => none
  | some u => u.sub

/-- `is_sub_active(uid)` (bot.py): `False` without a subscription;
`True` for a `None` expiry; `False` when `strptime` raises; else
`expire_at > now()`. -/
def is_sub_active (now : Int) (users : Doc User) (uid : Str) : Bool :=
  match subOf users uid with
  | none => false
  | some sub =>
    match sub.expire_at with
    | .null => true
    | .malformed => false
    | .valid t => decide (t > now)

/-- Result of `create_withdraw_request`: which localized reply is sent. -/
inductive WCreateRes where
  | invalid
  | insufficient (bal : ℚ)
  | created (req_id : Str)
deriving DecidableEq

/-- `create_withdraw_request(chat_id, uid, amount)` (bot.py): reject a
non-positive amount (`withdraw_invalid`); reject when the balance is
below the amount (`withdraw_insufficient`); otherwise insert a pending
request under `str(len(withdraw_requests) + 1)` and then set the
balance to `bal - amount` (`setdefault` first supplies a fresh record
with balance 0 for an unknown user). -/
def create_withdraw_request (now : Int) (uid : Str) (amount : Int) (st : St) :
    St × WCreateRes :=
  if amount ≤ 0 then (st, .invalid)
  else
    let bal := balOf st.users uid
    if bal < (amount : ℚ) then (st, .insufficient bal)
    else
      let req_id := natToStr (st.withdraw_requests.length + 1)
      let reqs := dSet st.withdraw_requests req_id ⟨uid, (amount : ℚ), lit "pending", now⟩
      let u := (dGet st.users uid).getD ⟨0, none, false⟩
      let users := dSet st.users uid ⟨bal - amount, u.sub, u.await_key⟩
      ({st with withdraw_requests := reqs, users := users}, .created req_id)

/-- Round half to even at two decimals: Python `round(v, 2)` applied to
the exactly-parsed decimal argument (binary floating point
representation effects are not modelled). -/
def rhEven (x : ℚ) : Int :=
  if x - ⌊x⌋ < 1 / 2 then ⌊x⌋
  else if (1 : ℚ) / 2 < x - ⌊x⌋ then ⌊x⌋ + 1
  else if ⌊x⌋ % 2 = 0 then ⌊x⌋ else ⌊x⌋ + 1

def round2 (v : ℚ) : ℚ := (rhEven (100 * v) : ℚ) / 100

/-- `_parse_amount(s)` (bot.py): `None` when `float(s)` raises (a
`none` input), when the value is not positive, or when it exceeds one
million; otherwise the value rounded to two decimals. -/
def parse_amount (raw : Option ℚ) : Option ℚ :=
  match raw with
  | none => none
  | some v => if v ≤ 0 ∨ 1000000 < v then none else some (round2 v)

/-- Which localized reply an admin balance command sends. -/
inductive AdminRes where
  | invalidAmount
  | userNotFound
  | ok
deriving DecidableEq

/-- `cmd_addbal` (bot.py), after the admin gate and argument split:
invalid amount and unknown user are rejected without mutation;
otherwise the balance is increased by the parsed amount. -/
def cmd_addbal (uid : Str) (raw : Option ℚ) (users : Doc User) : Doc User × AdminRes :=
  match parse_amount raw with
  | none => (users, .invalidAmount)
  | some amount =>
    match dGet users uid with
    | none => (users, .userNotFound)
    | some u => (dSet users uid ⟨u.balance + amount, u.sub, u.await_key⟩, .ok)

/-- `cmd_takebal` (bot.py): as `cmd_addbal`, but the new balance is
`max(0.0, balance - amount)`. -/
def cmd_takebal (uid : Str) (raw : Option ℚ) (users : Doc User) : Doc User × AdminRes :=
  match parse_amount raw with
  | none => (users, .invalidAmount)
  | some amount =>
    match dGet users uid with
    | none => (users, .userNotFound)
    | some u => (dSet users uid ⟨max 0 (u.balance - amount), u.sub, u.await_key⟩, .ok)

/-- `cmd_setbal` (bot.py): as `cmd_addbal`, but the balance is
overwritten with the parsed amount. -/
def cmd_setbal (uid : Str) (raw : Option ℚ) (users : Doc User) : Doc User × AdminRes :=
  match parse_amount raw with
  | none => (users, .invalidAmount)
  | some amount =>
    match dGet users uid with
    | none => (users, .userNotFound)
    | some u => (dSet users uid ⟨amount, u.sub, u.await_key⟩, .ok)

/-- The parsed `/gensub` argument: `monthly`, or `+days n`. -/
inductive GArg where
  | monthly
  | plusDays (n : Int)
deriving DecidableEq

/-- `cmd_gensub` (bot.py), after the admin gate and argument parsing:
`monthly` installs a fresh 30-day subscription from `now`; `+days n`
adds `n` days to the parsed stored expiry when the `sub` record carries
a parseable `expire_at` (falling back to `now` when the field is
absent, `None`, empty or unparseable — the code never checks whether
the stored expiry is in the future).  Either way the subscription is
retagged `monthly` / `MANUAL`. -/
def cmd_gensub (now : Int) (target : Str) (arg : GArg) (users : Doc User) : Doc User :=
  let u := (dGet users target).getD ⟨0, none, false⟩
  match arg with
  | .monthly =>
    dSet users target
      ⟨u.balance, some ⟨lit "monthly", .valid (now + 30 * 86400), lit "MANUAL"⟩, u.await_key⟩
  | .plusDays n =>
    let base : Int :=
      match u.sub with
      | some s =>
        match s.expire_at with
        | .valid t => t
        | _ => now
      | none => now
    dSet users target
      ⟨u.balance, some ⟨lit "monthly", .valid (base + n * 86400), lit "MANUAL"⟩, u.await_key⟩

/-- `activate_key_for_user(uid, key)` (bot.py): `none` (the
`key_invalid` reply) for an unknown key, a key whose `used_by` is
truthy, or a non-monthly type; otherwise writes the 30-day
subscription onto the user, clears `await_key`, marks the key consumed
(`used_by`, `used_at`) and returns the expiry echoed in the `key_ok`
reply. -/
def activate_key_for_user (now : Int) (uid key : Str) (st : St) : St × Option Int :=
  match dGet st.keys key with
  | none => (st, none)
  | some meta =>
    if pyTruthyStr meta.used_by then (st, none)
    else if meta.type ≠ lit "monthly" then (st, none)
    else
      let exp := now + 30 * 86400
      let u := (dGet st.users uid).getD ⟨0, none, false⟩
      let users := dSet st.users uid ⟨u.balance, some ⟨lit "monthly", .valid exp, key⟩, false⟩
      let keys := dSet st.keys key ⟨meta.type, meta.created_at, some uid, some now⟩
      ({st with users := users, keys := keys}, some exp)

/-- Python `int(s)` on a callback-data suffix: optional minus sign then
decimal digits (anything else raises, modelled as `none`). -/
def parseIntPy (s : Str) : Option Int :=
  match s with
  | '-' :: ds =>
    if ds ≠ [] ∧ (∀ c ∈ ds, isDigitCh c = true) then some (-(valOfDigits ds : Int)) else none
  | ds =>
    if ds ≠ [] ∧ (∀ c ∈ ds, isDigitCh c = true) then some ((valOfDigits ds : Int)) else none

/-- What the `callbacks` handler replies with. -/
inductive CbRes where
  | shown
  | created (r : WCreateRes)
  | notAdmin
  | alreadyProcessed
  | approved (rid : Str)
  | denied (rid : Str)
  | unhandled
deriving DecidableEq

/-- The `callbacks` handler (bot.py), after `ensure_user` and
`answer_callback_query`; `isAdm` is the value of `is_admin(uid)`
(computed from the `ADMIN_IDS` environment and the stored role, neither
of which the handler mutates).  The informational branches (`daily_trade`,
menus, deposit, website, support) reply without mutating state;
`withdraw_<n>` parses the suffix (0 on failure) and runs
`create_withdraw_request`; `wapp_<id>` / `wden_<id>` are admin-gated
and only move a `pending` request, appending one `withdraw_log` entry
keyed `str(len(log) + 1)` (deny also credits the amount back, with
`setdefault` supplying a zero-balance record for an absent owner).
The dispatch filter also routes the `cancel_` prefix here, but no
branch handles it: those callbacks fall through every test and return
`.unhandled` with the state untouched. -/
def callbacks (now : Int) (uid : Str) (isAdm : Bool) (data : Str) (st : St) : St × CbRes :=
  if data = lit "daily_trade" then (st, .shown)
  else if data = lit "withdraw_menu" then (st, .shown)
  else if data = lit "withdraw_status" then (st, .shown)
  else if lstarts data (lit "withdraw_") then
    let amount := (((afterFirst '_' data).getD []) |> parseIntPy).getD 0
    let p := create_withdraw_request now uid amount st
    (p.1, .created p.2)
  else if lstarts data (lit "wapp_") || lstarts data (lit "wden_") then
    if !isAdm then (st, .notAdmin)
    else
      let rid := (afterFirst '_' data).getD []
      match dGet st.withdraw_requests rid with
      | none => (st, .alreadyProcessed)
      | some req =>
        if req.status ≠ lit "pending" then (st, .alreadyProcessed)
        else if lstarts data (lit "wapp_") then
          let entry : LogEntry :=
            ⟨req.user_id, req.amount, lit "approved", req.created_at, now, lit "approved"⟩
          let log := dSet st.withdraw_log (natToStr (st.withdraw_log.length + 1)) entry
          let reqs := dSet st.withdraw_requests rid
            ⟨req.user_id, req.amount, lit "approved", req.created_at⟩
          ({st with withdraw_log := log, withdraw_requests := reqs}, .approved rid)
        else
          let owner := req.user_id
          let u := (dGet st.users owner).getD ⟨0, none, false⟩
          let users := dSet st.users owner ⟨u.balance + req.amount, u.sub, u.await_key⟩
          let entry : LogEntry :=
            ⟨req.user_id, req.amount, lit "denied", req.created_at, now, lit "denied"⟩
          let log := dSet st.withdraw_log (natToStr (st.withdraw_log.length + 1)) entry
          let reqs := dSet st.withdraw_requests rid
            ⟨req.user_id, req.amount, lit "denied", req.created_at⟩
          ({st with users := users, withdraw_log := log, withdraw_requests := reqs},
            .denied rid)
  else if lstarts data (lit "dep_") then (st, .shown)
  else if data = lit "deposit" then (st, .shown)
  else if data = lit "website" then (st, .shown)
  else if data = lit "support" then (st, .shown)
  else (st, .unhandled)

/-! ### Operation sequences for the ledger and key invariants -/

/-- The balance-ledger operations of the spec, as the code implements
them: `credit` is `/addbal`, `debit` is user withdrawal creation,
`admin_set` is `/setbal`, `admin_take` is `/takebal`. -/
inductive LOp where
  | credit (uid : Str) (raw : Option ℚ)
  | debit (now : Int) (uid : Str) (amount : Int)
  | adminSet (uid : Str) (raw : Option ℚ)
  | adminTake (uid : Str) (raw : Option ℚ)
deriving DecidableEq

def applyLOp (st : St) : LOp → St
  | .credit uid raw => {st with users := (cmd_addbal uid raw st.users).1}
  | .debit now uid amount => (create_withdraw_request now uid amount st).1
  | .adminSet uid raw => {st with users := (cmd_setbal uid raw st.users).1}
  | .adminTake uid raw => {st with users := (cmd_takebal uid raw st.users).1}

/-- Every balance in the users document is non-negative. -/
def NonNegBal (users : Doc User) : Prop := ∀ p ∈ users, 0 ≤ p.2.balance

instance (users : Doc User) : Decidable (NonNegBal users) := by
  unfold NonNegBal
  infer_instance

theorem mem_dSet (d : Doc α) (k : Str) (v : α) (p : Str × α) (h : p ∈ dSet d k v) :
    p = (k, v) ∨ p ∈ d := by
  induction d with
  | nil => simpa [dSet] using h
  | cons q rest ih =>
    by_cases hq : q.1 = k
    · cases q
      simp only [dSet] at h
      rw [if_pos (by simpa using hq)] at h
      rcases List.mem_cons.mp h with h | h
      · exact Or.inl h
      · exact Or.inr (List.mem_cons.mpr (Or.inr h))
    · cases q with
      | mk a b =>
        simp only [dSet] at h
        rw [if_neg (by simpa using hq)] at h
        rcases List.mem_cons.mp h with h | h
        · exact Or.inr (List.mem_cons.mpr (Or.inl h))
        · rcases ih h with h | h
          · exact Or.inl h
          · exact Or.inr (List.mem_cons.mpr (Or.inr h))

theorem NonNegBal_dSet (users : Doc User) (uid : Str) (u : User) (h : NonNegBal users)
    (hu : 0 ≤ u.balance) : NonNegBal (dSet users uid u) := by
  intro p hp
  rcases mem_dSet users uid u p hp with rfl | hp
  · exact hu
  · exact h p hp

theorem dGet_mem (d : Doc α) (k : Str) (v : α) (h : dGet d k = some v) : (k, v) ∈ d := by
  induction d with
  | nil => simp [dGet] at h
  | cons q rest ih =>
    cases q with
    | mk a b =>
      simp only [dGet, List.find?_cons] at h
      cases ha : (a == k) with
      | true =>
        rw [ha] at h
        have ha2 : a = k := by simpa using ha
        simp only [cond_true] at h
        simp at h
        subst ha2
        subst h
        simp
      | false =>
        rw [ha] at h
        simp only [cond_false] at h
        exact List.mem_cons.mpr (Or.inr (ih h))

theorem rhEven_nonneg (x : ℚ) (h : 0 ≤ x) : 0 ≤ rhEven x := by
  have hf : (0 : Int) ≤ ⌊x⌋ := Int.le_floor.mpr (by simpa using h)
  rw [rhEven]
  split
  · exact hf
  · split
    · omega
    · split <;> omega

theorem parse_amount_nonneg (raw : Option ℚ) (a : ℚ) (h : parse_amount raw = some a) :
    0 ≤ a := by
  match raw with
  | none => simp [parse_amount] at h
  | some v =>
    simp only [parse_amount] at h
    split at h
    · exact absurd h (by simp)
    · rename_i hcond
      push_neg at hcond
      have hv : 0 < v := lt_of_not_le (fun hle => absurd hle (by simpa using hcond.1))
      have := rhEven_nonneg (100 * v) (by positivity)
      simp only [Option.some.injEq] at h
      subst h
      rw [round2]
      positivity

theorem balOf_nonneg (users : Doc User) (uid : Str) (h : NonNegBal users) :
    0 ≤ balOf users uid := by
  rw [balOf]
  cases hg : dGet users uid with
  | none => simp
  | some u => exact h (uid, u) (dGet_mem users uid u hg)

/-- Every single ledger operation preserves balance non-negativity. -/
theorem applyLOp_preserves (st : St) (op : LOp) (h : NonNegBal st.users) :
    NonNegBal (applyLOp st op).users := by
  cases op with
  | credit uid raw =>
    simp only [applyLOp, cmd_addbal]
    cases hp : parse_amount raw with
    | none => exact h
    | some a =>
      cases hg : dGet st.users uid with
      | none => exact h
      | some u =>
        refine NonNegBal_dSet _ _ _ h ?_
        have h1 := h (uid, u) (dGet_mem _ _ _ hg)
        have h2 := parse_amount_nonneg raw a hp
        simp only at h1 ⊢
        linarith
  | debit now uid amount =>
    simp only [applyLOp, create_withdraw_request]
    split
    · exact h
    · split
      · exact h
      · rename_i hins
        refine NonNegBal_dSet _ _ _ h ?_
        simp only
        push_neg at hins
        linarith
  | adminSet uid raw =>
    simp only [applyLOp, cmd_setbal]
    cases hp : parse_amount raw with
    | none => exact h
    | some a =>
      cases hg : dGet st.users uid with
      | none => exact h
      | some u => exact NonNegBal_dSet _ _ _ h (parse_amount_nonneg raw a hp)
  | adminTake uid raw =>
    simp only [applyLOp, cmd_takebal]
    cases hp : parse_amount raw with
    | none => exact h
    | some a =>
      cases hg : dGet st.users uid with
      | none => exact h
      | some u => exact NonNegBal_dSet _ _ _ h (le_max_left 0 _)

/-- Key activation attempts, in order: `(uid, key, now)`. -/
def applyAct (st : St) (a : Str × Str × Int) : St :=
  (activate_key_for_user a.2.2 a.1 a.2.1 st).1

/-- The key's `used_by` field is truthy (the at-most-once guard). -/
def keyUsed (keys : Doc KeyMeta) (k : Str) : Bool :=
  match dGet keys k with
  | none => false
  | some m => pyTruthyStr m.used_by

/-- A consumed key is rejected, leaving the state untouched. -/
theorem activate_rejects_used (now : Int) (uid k : Str) (st : St)
    (h : keyUsed st.keys k = true) : activate_key_for_user now uid k st = (st, none) := by
  rw [keyUsed] at h
  cases hg : dGet st.keys k with
  | none => rw [hg] at h; simp at h
  | some m =>
    rw [hg] at h
    have hu : pyTruthyStr m.used_by = true := by simpa using h
    rw [activate_key_for_user, hg]
    simp [hu]

/-- No activation attempt ever clears a consumed key. -/
theorem applyAct_preserves_used (st : St) (a : Str × Str × Int) (k : Str)
    (h : keyUsed st.keys k = true) : keyUsed (applyAct st a).keys k = true := by
  by_cases hk : k = a.2.1
  · subst hk
    rw [applyAct, activate_rejects_used a.2.2 a.1 a.2.1 st h]
    exact h
  · rw [applyAct]
    cases hg : dGet st.keys a.2.1 with
    | none =>
      rw [activate_key_for_user, hg]
      exact h
    | some m =>
      rw [activate_key_for_user, hg]
      by_cases hu : pyTruthyStr m.used_by = true
      · simp only [hu, if_true]
        exact h
      · simp only [Bool.not_eq_true] at hu
        simp only [hu, Bool.false_eq_true, if_false]
        split
        · exact h
        · simp only [keyUsed]
          rw [dGet_dSet_ne st.keys a.2.1 k _ hk]
          rw [keyUsed] at h
          exact h

theorem foldl_preserves_used (acts : List (Str × Str × Int)) (st : St) (k : Str)
    (h : keyUsed st.keys k = true) : keyUsed (acts.foldl applyAct st).keys k = true := by
  induction acts generalizing st with
  | nil => exact h
  | cons a acts ih => exact ih (applyAct st a) (applyAct_preserves_used st a k h)

/-! ### The claims -/

/-- A one-user state: user `"7"` with balance 80, no requests yet. -/
def stW : St := ⟨[(lit "7", ⟨80, none, false⟩)], [], [], []⟩

/-- A state holding one fresh (unused) monthly key. -/
def stK : St := ⟨[], [(lit "MO-AAAA-BBBB-CCCC", ⟨lit "monthly", 0, none, none⟩)], [], []⟩

/-- A users document whose subscription expired at time 100. -/
def stG : Doc User :=
  [(lit "5", ⟨0, some ⟨lit "monthly", ExpVal.valid 100, lit "MANUAL"⟩, false⟩)]

/-- A nested JSON document exercising every constructor. -/
def docW : J := J.obj (JObj.ofL [
  (lit "a", J.num 10),
  (lit "b", J.arr (JList.ofL [J.null, J.bool true, J.num (-7), J.str (lit "hi there")])),
  (lit "c", J.obj (JObj.ofL []))])

/-- C9: subscription activity is a pure function of the stored
`expire_at` and the current time: no subscription means inactive; a
`None` expiry is active at every `now`; a well-formed expiry is active
exactly at the instants strictly before it. -/
theorem subscription_activity_pure (now : Int) (users : Doc User) (uid : Str) :
    (subOf users uid = none → is_sub_active now users uid = false) ∧
    (∀ s, subOf users uid = some s → s.expire_at = ExpVal.null →
      is_sub_active now users uid = true) ∧
    (∀ s t, subOf users uid = some s → s.expire_at = ExpVal.valid t →
      (is_sub_active now users uid = true ↔ now < t)) := by
  refine ⟨?_, ?_, ?_⟩
  · intro h
    rw [is_sub_active, h]
  · intro s hs he
    simp [is_sub_active, hs, he]
  · intro s t hs he
    simp [is_sub_active, hs, he]

/-- C9 witness at `now = 5` against a subscription expiring at 100. -/
theorem subscription_activity_pure_witness :
    is_sub_active 5 stG (lit "5") = true ↔ (5 : Int) < 100 :=
  (subscription_activity_pure 5 stG (lit "5")).2.2
    ⟨lit "monthly", ExpVal.valid 100, lit "MANUAL"⟩ 100 (by decide) (by decide)

/-- C10: the KV store round-trips every well-formed JSON document:
`set_json` then `get_json` (relational backend, compact encoding) and
`save_json` then `load_json` (file backend, indent=2 encoding) both
return a value structurally equal to the one stored. -/
theorem kv_store_round_trip :
    (∀ (tbl : Doc Str) (key : Str) (v : J) (default : Option J), jwf v = true →
      dbGetJson (dbSetJson tbl key v) key default = some v) ∧
    (∀ (files : Doc Str) (path : Str) (v : J), jwf v = true →
      loadJsonFile (saveJsonFile files path v) path = some v) :=
  ⟨fun tbl key v default h => dbGetJson_dbSetJson tbl key v default h,
   fun files path v h => loadJsonFile_saveJsonFile files path v h⟩

/-- C10 witness on a concrete nested document, both backends. -/
theorem kv_store_round_trip_witness :
    jwf docW = true ∧
    dbGetJson (dbSetJson [] (lit "users") docW) (lit "users") none = some docW ∧
    loadJsonFile (saveJsonFile [] (lit "users.json") docW) (lit "users.json") = some docW :=
  ⟨by decide, kv_store_round_trip.1 [] (lit "users") docW none (by decide),
    kv_store_round_trip.2 [] (lit "users.json") docW (by decide)⟩

/-- C5 (code bug): the router filter routes `cancel_<id>` callbacks into
the `callbacks` handler, but no branch of the handler tests for the
`cancel_` prefix, so every cancel click — by the owner of a pending
request included — falls through all branches and returns with the
state untouched: no balance credit, no status flip to `canceled`. -/
theorem cancel_callback_noop (now : Int) (uid : Str) (adm : Bool) (rid : Str) (st : St) :
    callbacks now uid adm (lit "cancel_" ++ rid) st = (st, CbRes.unhandled) := by
  simp [callbacks, lit, lstarts]

/-- C7 counterexample: with a stored subscription whose parseable
`expire_at` (100) lies in the past of `now` (1000000), `+days 1` still
adds the day to the stale expiry, not to `now` as the claim requires:
the result is 100 + 86400, which differs from 1000000 + 86400. -/
theorem gensub_plus_days_ignores_past_expiry_cex :
    subOf stG (lit "5") =
      some ⟨lit "monthly", ExpVal.valid 100, lit "MANUAL"⟩ ∧
    (100 : Int) < 1000000 ∧
    subOf (cmd_gensub 1000000 (lit "5") (GArg.plusDays 1) stG) (lit "5") =
      some ⟨lit "monthly", ExpVal.valid (100 + 86400), lit "MANUAL"⟩ ∧
    (100 + 86400 : Int) ≠ 1000000 + 86400 := by decide

/-- C7 (amended): the `+days` extension adds the days to the stored
`expire_at` whenever the subscription carries a parseable expiry —
whether or not that expiry is still in the future — and only falls back
to `now()` when there is no subscription or its `expire_at` is `None`,
empty or unparseable; the balance and every other user are untouched. -/
theorem gensub_plus_days_behavior (now : Int) (target : Str) (n : Int) (users : Doc User) :
    (∀ s t, subOf users target = some s → s.expire_at = ExpVal.valid t →
      subOf (cmd_gensub now target (GArg.plusDays n) users) target =
        some ⟨lit "monthly", ExpVal.valid (t + n * 86400), lit "MANUAL"⟩) ∧
    (∀ s, subOf users target = some s →
      (s.expire_at = ExpVal.null ∨ s.expire_at = ExpVal.malformed) →
      subOf (cmd_gensub now target (GArg.plusDays n) users) target =
        some ⟨lit "monthly", ExpVal.valid (now + n * 86400), lit "MANUAL"⟩) ∧
    (subOf users target = none →
      subOf (cmd_gensub now target (GArg.plusDays n) users) target =
        some ⟨lit "monthly", ExpVal.valid (now + n * 86400), lit "MANUAL"⟩) ∧
    balOf (cmd_gensub now target (GArg.plusDays n) users) target = balOf users target ∧
    (∀ u2, u2 ≠ target →
      dGet (cmd_gensub now target (GArg.plusDays n) users) u2 = dGet users u2) := by
  refine ⟨?_, ?_, ?_, ?_, ?_⟩
  · intro s t hs he
    cases hg : dGet users target with
    | none => rw [subOf, hg] at hs; simp at hs
    | some u =>
      have hsub : u.sub = some s := by rw [subOf, hg] at hs; exact hs
      simp [cmd_gensub, hg, hsub, he, subOf, dGet_dSet_self]
  · intro s hs hor
    cases hg : dGet users target with
    | none => rw [subOf, hg] at hs; simp at hs
    | some u =>
      have hsub : u.sub = some s := by rw [subOf, hg] at hs; exact hs
      rcases hor with he | he <;>
        simp [cmd_gensub, hg, hsub, he, subOf, dGet_dSet_self]
  · intro hs
    cases hg : dGet users target with
    | none => simp [cmd_gensub, hg, subOf, dGet_dSet_self]
    | some u =>
      have hsub : u.sub = none := by rw [subOf, hg] at hs; exact hs
      simp [cmd_gensub, hg, hsub, subOf, dGet_dSet_self]
  · cases hg : dGet users target with
    | none => simp [cmd_gensub, hg, balOf, dGet_dSet_self]
    | some u => simp [cmd_gensub, hg, balOf, dGet_dSet_self]
  · intro u2 hne
    cases hg : dGet users target with
    | none => simp [cmd_gensub, hg, dGet_dSet_ne _ _ _ _ hne]
    | some u => simp [cmd_gensub, hg, dGet_dSet_ne _ _ _ _ hne]

/-- C7 witness: the first amended conjunct applied to the concrete
expired-subscription state. -/
theorem gensub_plus_days_behavior_witness :
    subOf (cmd_gensub 1000000 (lit "5") (GArg.plusDays 1) stG) (lit "5") =
      some ⟨lit "monthly", ExpVal.valid (100 + 1 * 86400), lit "MANUAL"⟩ :=
  (gensub_plus_days_behavior 1000000 (lit "5") 1 stG).1
    ⟨lit "monthly", ExpVal.valid 100, lit "MANUAL"⟩ 100 (by decide) (by decide)

/-- C8 counterexample: `/setbal 7 0` on a user with balance 80 is
rejected as an invalid amount (`_parse_amount` requires `v > 0`), so
setting a balance to exactly 0 does not succeed and nothing is
overwritten — the claim's `amount >= 0` contract does not hold at 0. -/
theorem setbal_zero_rejected_cex :
    cmd_setbal (lit "7") (some 0) stW.users = (stW.users, AdminRes.invalidAmount) ∧
    balOf stW.users (lit "7") = 80 := by decide

/-- C8 (amended): `admin_set` overwrites the balance only for amounts
with `0 < amount ≤ 1,000,000` (rounded to two decimals); an amount of 0
(or any non-positive amount) is rejected as invalid with no mutation;
and `admin_take` of any amount on a user whose balance is 0 leaves the
balance at 0. -/
theorem admin_balance_set_behavior (users : Doc User) (uid : Str) :
    (∀ v : ℚ, v ≤ 0 → cmd_setbal uid (some v) users = (users, AdminRes.invalidAmount)) ∧
    (∀ v u, 0 < v → v ≤ 1000000 → dGet users uid = some u →
      cmd_setbal uid (some v) users =
        (dSet users uid ⟨round2 v, u.sub, u.await_key⟩, AdminRes.ok) ∧
      balOf (cmd_setbal uid (some v) users).1 uid = round2 v) ∧
    (∀ raw, balOf users uid = 0 → balOf (cmd_takebal uid raw users).1 uid = 0) := by
  refine ⟨?_, ?_, ?_⟩
  · intro v hv
    simp [cmd_setbal, parse_amount, hv]
  · intro v u hpos hle hg
    have hp : parse_amount (some v) = some (round2 v) := by
      simp only [parse_amount]
      rw [if_neg (by push_neg; exact ⟨hpos, hle⟩)]
    refine ⟨by simp [cmd_setbal, hp, hg], ?_⟩
    simp [cmd_setbal, hp, hg, balOf, dGet_dSet_self]
  · intro raw h0
    cases hp : parse_amount raw with
    | none => simpa [cmd_takebal, hp] using h0
    | some a =>
      cases hg : dGet users uid with
      | none => simpa [cmd_takebal, hp, hg] using h0
      | some u =>
        have hu : u.balance = 0 := by rw [balOf, hg] at h0; exact h0
        have ha : 0 ≤ a := parse_amount_nonneg raw a hp
        simp [cmd_takebal, hp, hg, balOf, dGet_dSet_self, hu]
        exact ha

/-- C8 witness: setting 25 overwrites, setting 0 is refused, and
take-on-zero stays zero, all on the concrete one-user state. -/
theorem admin_balance_set_behavior_witness :
    balOf (cmd_setbal (lit "7") (some 25) stW.users).1 (lit "7") = round2 25 ∧
    cmd_setbal (lit "7") (some 0) stW.users = (stW.users, AdminRes.invalidAmount) ∧
    balOf (cmd_takebal (lit "9") (some 999) [(lit "9", ⟨0, none, false⟩)]).1 (lit "9") = 0 :=
  ⟨((admin_balance_set_behavior stW.users (lit "7")).2.1 25 ⟨80, none, false⟩
      (by decide) (by decide) (by decide)).2,
   (admin_balance_set_behavior stW.users (lit "7")).1 0 (by decide),
   (admin_balance_set_behavior [(lit "9", ⟨0, none, false⟩)] (lit "9")).2.2 (some 999)
     (by decide)⟩

/-- C1: withdrawal request creation.  A non-positive amount is rejected
as invalid and an amount above the balance as insufficient, both
leaving the whole state (users and requests documents included)
untouched; otherwise exactly `amount` is debited from the user's
balance, no other user changes, and one new request with status
`pending`, that user id and that amount is inserted under the id
`str(len(withdraw_requests) + 1)` (fresh in every state this code
produces, taken here as a hypothesis). -/
theorem withdraw_request_creation (now : Int) (uid : Str) (amount : Int) (st : St) :
    (amount ≤ 0 → create_withdraw_request now uid amount st = (st, WCreateRes.invalid)) ∧
    (0 < amount → balOf st.users uid < (amount : ℚ) →
      create_withdraw_request now uid amount st =
        (st, WCreateRes.insufficient (balOf st.users uid))) ∧
    (0 < amount → (amount : ℚ) ≤ balOf st.users uid →
      dMem st.withdraw_requests (natToStr (st.withdraw_requests.length + 1)) = false →
      (create_withdraw_request now uid amount st).2 =
        WCreateRes.created (natToStr (st.withdraw_requests.length + 1)) ∧
      dGet (create_withdraw_request now uid amount st).1.withdraw_requests
        (natToStr (st.withdraw_requests.length + 1)) =
        some ⟨uid, (amount : ℚ), lit "pending", now⟩ ∧
      (create_withdraw_request now uid amount st).1.withdraw_requests.length =
        st.withdraw_requests.length + 1 ∧
      balOf (create_withdraw_request now uid amount st).1.users uid =
        balOf st.users uid - amount ∧
      (∀ u2, u2 ≠ uid → dGet (create_withdraw_request now uid amount st).1.users u2 =
        dGet st.users u2) ∧
      (create_withdraw_request now uid amount st).1.keys = st.keys ∧
      (create_withdraw_request now uid amount st).1.withdraw_log = st.withdraw_log) := by
  refine ⟨?_, ?_, ?_⟩
  · intro h
    simp only [create_withdraw_request]
    rw [if_pos h]
  · intro h1 h2
    simp only [create_withdraw_request]
    rw [if_neg (by omega), if_pos h2]
  · intro h1 h2 hfresh
    simp only [create_withdraw_request]
    rw [if_neg (by omega), if_neg (not_lt.mpr h2)]
    refine ⟨rfl, ?_, ?_, ?_, ?_, rfl, rfl⟩
    · exact dGet_dSet_self _ _ _
    · exact dSet_length_of_not_mem _ _ _ hfresh
    · simp only [balOf, dGet_dSet_self]
    · intro u2 hne
      exact dGet_dSet_ne _ _ _ _ hne

/-- C1 witness: user `"7"` with balance 80 withdraws 50; request `"1"`
is created pending and the balance becomes 30. -/
theorem withdraw_request_creation_witness :
    (create_withdraw_request 0 (lit "7") 50 stW).2 = WCreateRes.created (natToStr 1) ∧
    balOf (create_withdraw_request 0 (lit "7") 50 stW).1.users (lit "7") =
      balOf stW.users (lit "7") - 50 :=
  ⟨((withdraw_request_creation 0 (lit "7") 50 stW).2.2 (by decide) (by decide) (by decide)).1,
   ((withdraw_request_creation 0 (lit "7") 50 stW).2.2 (by decide) (by decide)
     (by decide)).2.2.2.1⟩

/-- C2: balance non-negativity.  Any sequence of credit (`/addbal`),
debit (withdrawal creation), `admin_set` (`/setbal`) and `admin_take`
(`/takebal`) operations keeps every balance non-negative; a debit that
would go below zero fails with `InsufficientBalance`, leaving the state
unchanged; and `admin_take` writes `max(0, balance - amount)`, never a
negative value. -/
theorem balance_nonnegativity (ops : List LOp) (st : St) (h : NonNegBal st.users) :
    NonNegBal ((ops.foldl applyLOp st).users) ∧
    (∀ (now : Int) (uid : Str) (amount : Int), 0 < amount →
      balOf st.users uid < (amount : ℚ) →
      create_withdraw_request now uid amount st =
        (st, WCreateRes.insufficient (balOf st.users uid))) ∧
    (∀ uid raw a u, parse_amount raw = some a → dGet st.users uid = some u →
      balOf (cmd_takebal uid raw st.users).1 uid = max 0 (u.balance - a) ∧
      0 ≤ balOf (cmd_takebal uid raw st.users).1 uid) := by
  refine ⟨?_, ?_, ?_⟩
  · induction ops generalizing st with
    | nil => exact h
    | cons op ops ih => exact ih (applyLOp st op) (applyLOp_preserves st op h)
  · intro now uid amount h1 h2
    simp only [create_withdraw_request]
    rw [if_neg (by omega), if_pos h2]
  · intro uid raw a u hp hg
    constructor
    · simp [cmd_takebal, hp, hg, balOf, dGet_dSet_self]
    · simp [cmd_takebal, hp, hg, balOf, dGet_dSet_self]

/-- C2 witness: a concrete mixed sequence starting from balance 80
keeps the users document non-negative. -/
theorem balance_nonnegativity_witness :
    NonNegBal (([LOp.credit (lit "7") (some 5),
      LOp.debit 0 (lit "7") 60,
      LOp.adminTake (lit "7") (some 999),
      LOp.adminSet (lit "7") (some 12)].foldl applyLOp stW).users) :=
  (balance_nonnegativity _ stW (by decide)).1

/-- C3: status transition exclusivity.  Once a request's status is
terminal (`approved`, `denied` or `canceled`), a further approve, deny
or cancel callback on it leaves the entire state — balances, requests
and the `withdraw_log` audit document — unchanged: approve/deny answer
`Already processed` (for an admin; for a non-admin they return
silently), and cancel callbacks are unhandled no-ops. -/
theorem status_transition_exclusivity (now : Int) (uid : Str) (adm : Bool) (rid : Str)
    (st : St) (req : WReq) (hreq : dGet st.withdraw_requests rid = some req)
    (hterm : req.status = lit "approved" ∨ req.status = lit "denied" ∨
      req.status = lit "canceled") :
    (callbacks now uid adm (lit "wapp_" ++ rid) st).1 = st ∧
    (callbacks now uid adm (lit "wden_" ++ rid) st).1 = st ∧
    callbacks now uid adm (lit "cancel_" ++ rid) st = (st, CbRes.unhandled) ∧
    (adm = true →
      (callbacks now uid adm (lit "wapp_" ++ rid) st).2 = CbRes.alreadyProcessed ∧
      (callbacks now uid adm (lit "wden_" ++ rid) st).2 = CbRes.alreadyProcessed) := by
  have hstat : ¬ req.status = ['p', 'e', 'n', 'd', 'i', 'n', 'g'] := by
    rcases hterm with h | h | h <;> rw [h] <;> decide
  refine ⟨?_, ?_, ?_, ?_⟩
  · cases adm <;> simp [callbacks, lit, lstarts, afterFirst, hreq, hstat]
  · cases adm <;> simp [callbacks, lit, lstarts, afterFirst, hreq, hstat]
  · simp [callbacks, lit, lstarts]
  · intro ha
    subst ha
    constructor <;> simp [callbacks, lit, lstarts, afterFirst, hreq, hstat]

/-- A state with one already-denied request. -/
def stT : St :=
  ⟨[(lit "7", ⟨30, none, false⟩)], [], [(natToStr 1, ⟨lit "7", 50, lit "denied", 0⟩)], []⟩

/-- C3 witness: a second approval attempt on the denied request `"1"`
leaves the state untouched. -/
theorem status_transition_exclusivity_witness :
    (callbacks 5 (lit "9") true (lit "wapp_" ++ natToStr 1) stT).1 = stT :=
  (status_transition_exclusivity 5 (lit "9") true (natToStr 1) stT
    ⟨lit "7", 50, lit "denied", 0⟩ (by decide) (Or.inr (Or.inl (by decide)))).1

/-- C4: adjudication conservation.  On a pending request of amount `A`:
an admin deny credits exactly `A` back to the owner (no other user
changes), sets the status to `denied` (no other request changes) and
appends exactly one audit entry to `withdraw_log`; an admin approve
leaves every balance unchanged, sets the status to `approved` and
appends exactly one audit entry.  (The log key `str(len(log) + 1)` is
fresh in every state this code produces; taken as a hypothesis.) -/
theorem withdrawal_adjudication_conservation (now : Int) (uid : Str) (rid : Str) (st : St)
    (req : WReq) (hreq : dGet st.withdraw_requests rid = some req)
    (hpend : req.status = lit "pending")
    (hfresh : dMem st.withdraw_log (natToStr (st.withdraw_log.length + 1)) = false) :
    ((callbacks now uid true (lit "wapp_" ++ rid) st).2 = CbRes.approved rid ∧
     (callbacks now uid true (lit "wapp_" ++ rid) st).1.users = st.users ∧
     dGet (callbacks now uid true (lit "wapp_" ++ rid) st).1.withdraw_requests rid =
       some ⟨req.user_id, req.amount, lit "approved", req.created_at⟩ ∧
     (∀ r2, r2 ≠ rid →
       dGet (callbacks now uid true (lit "wapp_" ++ rid) st).1.withdraw_requests r2 =
         dGet st.withdraw_requests r2) ∧
     (callbacks now uid true (lit "wapp_" ++ rid) st).1.withdraw_log =
       st.withdraw_log ++
         [(natToStr (st.withdraw_log.length + 1),
           ⟨req.user_id, req.amount, lit "approved", req.created_at, now, lit "approved"⟩)]) ∧
    ((callbacks now uid true (lit "wden_" ++ rid) st).2 = CbRes.denied rid ∧
     balOf (callbacks now uid true (lit "wden_" ++ rid) st).1.users req.user_id =
       balOf st.users req.user_id + req.amount ∧
     (∀ u2, u2 ≠ req.user_id →
       dGet (callbacks now uid true (lit "wden_" ++ rid) st).1.users u2 =
         dGet st.users u2) ∧
     dGet (callbacks now uid true (lit "wden_" ++ rid) st).1.withdraw_requests rid =
       some ⟨req.user_id, req.amount, lit "denied", req.created_at⟩ ∧
     (∀ r2, r2 ≠ rid →
       dGet (callbacks now uid true (lit "wden_" ++ rid) st).1.withdraw_requests r2 =
         dGet st.withdraw_requests r2) ∧
     (callbacks now uid true (lit "wden_" ++ rid) st).1.withdraw_log =
       st.withdraw_log ++
         [(natToStr (st.withdraw_log.length + 1),
           ⟨req.user_id, req.amount, lit "denied", req.created_at, now, lit "denied"⟩)]) := by
  have happ : callbacks now uid true (lit "wapp_" ++ rid) st =
      ({st with
        withdraw_log := dSet st.withdraw_log (natToStr (st.withdraw_log.length + 1))
          ⟨req.user_id, req.amount, lit "approved", req.created_at, now, lit "approved"⟩,
        withdraw_requests := dSet st.withdraw_requests rid
          ⟨req.user_id, req.amount, lit "approved", req.created_at⟩}, CbRes.approved rid) := by
    simp [callbacks, lit, lstarts, afterFirst, hreq, hpend]
  have hden : callbacks now uid true (lit "wden_" ++ rid) st =
      ({st with
        users := dSet st.users req.user_id
          ⟨((dGet st.users req.user_id).getD ⟨0, none, false⟩).balance + req.amount,
           ((dGet st.users req.user_id).getD ⟨0, none, false⟩).sub,
           ((dGet st.users req.user_id).getD ⟨0, none, false⟩).await_key⟩,
        withdraw_log := dSet st.withdraw_log (natToStr (st.withdraw_log.length + 1))
          ⟨req.user_id, req.amount, lit "denied", req.created_at, now, lit "denied"⟩,
        withdraw_requests := dSet st.withdraw_requests rid
          ⟨req.user_id, req.amount, lit "denied", req.created_at⟩}, CbRes.denied rid) := by
    simp [callbacks, lit, lstarts, afterFirst, hreq, hpend]
  have hbal : ((dGet st.users req.user_id).getD ⟨0, none, false⟩).balance =
      balOf st.users req.user_id := by
    rw [balOf]
    cases dGet st.users req.user_id <;> rfl
  refine ⟨⟨?_, ?_, ?_, ?_, ?_⟩, ⟨?_, ?_, ?_, ?_, ?_, ?_⟩⟩
  · rw [happ]
  · rw [happ]
  · rw [happ]
    exact dGet_dSet_self _ _ _
  · intro r2 hne
    rw [happ]
    exact dGet_dSet_ne _ _ _ _ hne
  · rw [happ]
    exact dSet_eq_append_of_not_mem _ _ _ hfresh
  · rw [hden]
  · rw [hden]
    simp only [balOf, dGet_dSet_self]
    cases hg : dGet st.users req.user_id <;> simp [hg]
  · intro u2 hne
    rw [hden]
    exact dGet_dSet_ne _ _ _ _ hne
  · rw [hden]
    exact dGet_dSet_self _ _ _
  · intro r2 hne
    rw [hden]
    exact dGet_dSet_ne _ _ _ _ hne
  · rw [hden]
    exact dSet_eq_append_of_not_mem _ _ _ hfresh

/-- A state with one pending request of amount 50 by user `"7"`. -/
def stP : St :=
  ⟨[(lit "7", ⟨30, none, false⟩)], [], [(natToStr 1, ⟨lit "7", 50, lit "pending", 0⟩)], []⟩

/-- C4 witness: denying the pending request `"1"` credits the 50 back
(balance 30 becomes 80). -/
theorem withdrawal_adjudication_conservation_witness :
    balOf (callbacks 9 (lit "adm") true (lit "wden_" ++ natToStr 1) stP).1.users (lit "7") =
      balOf stP.users (lit "7") + 50 :=
  (withdrawal_adjudication_conservation 9 (lit "adm") (natToStr 1) stP
    ⟨lit "7", 50, lit "pending", 0⟩ (by decide) (by decide) (by decide)).2.2.1

/-- C6: at-most-once key redemption.  A successful activation (by a
real user id, which `ensure_user` makes a non-empty decimal string)
marks the key consumed (`used_by`, `used_at`), writes the monthly
subscription onto the user and clears the awaiting-key flag; and after
it, no later activation attempt with the same key value can succeed —
whatever the user and however many attempts intervene, the attempt
returns the rejection and leaves the state unchanged. -/
theorem key_redemption_at_most_once (now : Int) (uid key : Str) (st st2 : St) (exp : Int)
    (huid : uid ≠ []) (hact : activate_key_for_user now uid key st = (st2, some exp)) :
    exp = now + 30 * 86400 ∧
    (∃ m : KeyMeta, dGet st.keys key = some m ∧ pyTruthyStr m.used_by = false ∧
      dGet st2.keys key = some ⟨m.type, m.created_at, some uid, some now⟩) ∧
    dGet st2.users uid = some ⟨balOf st.users uid,
      some ⟨lit "monthly", ExpVal.valid (now + 30 * 86400), key⟩, false⟩ ∧
    (∀ (acts : List (Str × Str × Int)) (now2 : Int) (uid2 : Str),
      activate_key_for_user now2 uid2 key (acts.foldl applyAct st2) =
        (acts.foldl applyAct st2, none)) := by
  cases hg : dGet st.keys key with
  | none =>
    rw [activate_key_for_user, hg] at hact
    exact absurd (congrArg Prod.snd hact) (by simp)
  | some m =>
    have hact2 : (if pyTruthyStr m.used_by = true then (st, (none : Option Int))
        else if m.type ≠ lit "monthly" then (st, none)
        else ({st with
          users := dSet st.users uid
            ⟨((dGet st.users uid).getD ⟨0, none, false⟩).balance,
             some ⟨lit "monthly", ExpVal.valid (now + 30 * 86400), key⟩, false⟩,
          keys := dSet st.keys key ⟨m.type, m.created_at, some uid, some now⟩},
          some (now + 30 * 86400))) = (st2, some exp) := by
      rw [← hact, activate_key_for_user, hg]
    clear hact
    by_cases hu : pyTruthyStr m.used_by = true
    · rw [if_pos hu] at hact2
      exact absurd (congrArg Prod.snd hact2) (by simp)
    · rw [if_neg hu] at hact2
      by_cases ht : m.type ≠ lit "monthly"
      · rw [if_pos ht] at hact2
        exact absurd (congrArg Prod.snd hact2) (by simp)
      · rw [if_neg ht] at hact2
        have hst2 := congrArg Prod.fst hact2
        have hexp : exp = now + 30 * 86400 := by
          have := congrArg Prod.snd hact2
          simp at this
          omega
        simp only at hst2
        have hkeys : dGet st2.keys key = some ⟨m.type, m.created_at, some uid, some now⟩ := by
          rw [← hst2]
          exact dGet_dSet_self _ _ _
        have husers : dGet st2.users uid = some ⟨balOf st.users uid,
            some ⟨lit "monthly", ExpVal.valid (now + 30 * 86400), key⟩, false⟩ := by
          rw [← hst2]
          simp only [dGet_dSet_self]
          rw [balOf]
          cases dGet st.users uid <;> rfl
        have hused : keyUsed st2.keys key = true := by
          rw [keyUsed, hkeys]
          cases uid with
          | nil => exact absurd rfl huid
          | cons c cs => rfl
        refine ⟨hexp, ⟨m, rfl, by simpa using hu, hkeys⟩, husers, ?_⟩
        intro acts now2 uid2
        exact activate_rejects_used now2 uid2 key _
          (foldl_preserves_used acts st2 key hused)

/-- C6 witness: user `"5"` redeems the fresh key; a sequence of two
further attempts (same key, different users) is rejected. -/
theorem key_redemption_at_most_once_witness :
    activate_key_for_user 77 (lit "9")
      (lit "MO-AAAA-BBBB-CCCC")
      ([((lit "8" : Str), ((lit "MO-AAAA-BBBB-CCCC" : Str), (50 : Int)))].foldl applyAct
        (activate_key_for_user 100 (lit "5") (lit "MO-AAAA-BBBB-CCCC") stK).1) =
      (([((lit "8" : Str), ((lit "MO-AAAA-BBBB-CCCC" : Str), (50 : Int)))].foldl applyAct
        (activate_key_for_user 100 (lit "5") (lit "MO-AAAA-BBBB-CCCC") stK).1), none) :=
  (key_redemption_at_most_once 100 (lit "5") (lit "MO-AAAA-BBBB-CCCC") stK
    (activate_key_for_user 100 (lit "5") (lit "MO-AAAA-BBBB-CCCC") stK).1
    (100 + 30 * 86400) (by decide) (by decide)).2.2.2
    [((lit "8" : Str), ((lit "MO-AAAA-BBBB-CCCC" : Str), (50 : Int)))] 77 (lit "9")
